import Mathlib

/-!
# Verification of the code-graph builder and query engine

Shallow embedding of `analyze_codebase.py` (the `GraphBuilder` registry) and
`query_graph.py` (the `GraphQuery` index, risk classifier, impact BFS,
shortest-path BFS and risk ranking), with theorems checking the specified
properties against the embedded code.

Numbers are `Nat`/`ℚ` (Python ints are unbounded; the float factors 1.5, 2.0,
0.1 of the risk ranking are modelled as exact rationals).  Python dicts are
modelled as association lists with the dict's insertion-order semantics.
-/

namespace CodeGraph

/-- A graph node, mirroring the node dicts of `analyze_codebase.py`:
`{id, label, type, file, line, metadata}`. -/
structure Node where
  id : String
  label : String
  type : String
  file : String
  line : Nat
  metadata : List (String × String)
deriving DecidableEq, Repr

/-- A directed edge `{source, target, type, metadata}`. -/
structure Edge where
  source : String
  target : String
  type : String
  metadata : List (String × String)
deriving DecidableEq, Repr

/-- The exchange snapshot, restricted to the fields the query engine's
structural queries read: the `nodes` and `edges` arrays. -/
structure Snapshot where
  nodes : List Node
  edges : List Edge
deriving DecidableEq, Repr

/-- Membership of an id in a node list (`e["source"] in self.nodes`). -/
def hasNodeId (ns : List Node) (i : String) : Bool :=
  ns.any (fun n => n.id == i)

/-- First-occurrence key order: Python dict comprehension
`{n["id"]: n for n in nodes}` keeps each key at its first position. -/
def dedupAcc : List String → List String → List String
  | _, [] => []
  | seen, i :: rest =>
    if i ∈ seen then dedupAcc seen rest else i :: dedupAcc (i :: seen) rest

/-- The last node of `ns` carrying id `i` (a later dict write overwrites the
value stored under a key). -/
def lastWithId (ns : List Node) (i : String) : Option Node :=
  (ns.filter (fun n => n.id == i)).getLast?

/-- `self.nodes = {n["id"]: n for n in data["nodes"]}` as an ordered list:
first-occurrence key order, last-occurrence values. -/
def indexNodes (ns : List Node) : List Node :=
  (dedupAcc [] (ns.map (fun n => n.id))).filterMap (fun i => lastWithId ns i)

/-- The edges kept by `GraphQuery.__init__`: both endpoints must exist in the
node table (ghost edges are dropped). -/
def keptEdges (s : Snapshot) : List Edge :=
  s.edges.filter (fun e => hasNodeId s.nodes e.source && hasNodeId s.nodes e.target)

/-- The loaded index: node table, kept edges, ghost-edge diagnostic. -/
structure GraphQuery where
  nodes : List Node
  edges : List Edge
  ghostEdges : Nat
deriving DecidableEq, Repr

/-- `GraphQuery.__init__`: build the node table, filter ghost edges, record
`len(data["edges"]) - len(self.edges)` as the ghost diagnostic. -/
def loadGraph (s : Snapshot) : GraphQuery :=
  { nodes := indexNodes s.nodes
    edges := keptEdges s
    ghostEdges := s.edges.length - (keptEdges s).length }

/-- `self.outgoing[i]`: kept edges with source `i`, in edge-list order. -/
def outgoingOf (g : GraphQuery) (i : String) : List Edge :=
  g.edges.filter (fun e => e.source == i)

/-- `self.incoming[i]`: kept edges with target `i`, in edge-list order. -/
def incomingOf (g : GraphQuery) (i : String) : List Edge :=
  g.edges.filter (fun e => e.target == i)

/-- `self.connection_counts[i]`: the Counter loop adds one per endpoint of
each kept edge. -/
def connCount (g : GraphQuery) (i : String) : Nat :=
  g.edges.foldl
    (fun acc e => acc + (if e.source == i then 1 else 0) + (if e.target == i then 1 else 0)) 0

/-- The degree of the spec's index layer: `|outgoing[i]| + |incoming[i]|`. -/
def degree (g : GraphQuery) (i : String) : Nat :=
  (outgoingOf g i).length + (incomingOf g i).length

/-- `self.nodes.get(i)` on the loaded table. -/
def lookupNode (g : GraphQuery) (i : String) : Option Node :=
  (g.nodes.filter (fun n => n.id == i)).head?

/-- `self.nodes.get(i, {}).get("type", "")`. -/
def nodeType (g : GraphQuery) (i : String) : String :=
  ((lookupNode g i).map Node.type).getD ""

/-- The four risk tiers. -/
inductive Risk where
  | critical
  | high
  | medium
  | low
deriving DecidableEq, Repr

/-- `GraphQuery.get_risk_level`, the ordered rule list of the code. -/
def getRiskLevel (g : GraphQuery) (i : String) : Risk :=
  let count := connCount g i
  let incoming := (incomingOf g i).length
  let t := nodeType g i
  if count ≥ 20 ∨ t = "router" ∨ t = "config" then Risk.critical
  else if count ≥ 10 ∨ (incoming ≥ 5 ∧ (t = "collection" ∨ t = "service")) then Risk.high
  else if count ≥ 4 ∨ incoming ≥ 2 then Risk.medium
  else Risk.low

/-- The risk rule list exactly as the spec words it, as a pure function of
`connections`, `incoming` and the node type. -/
def riskSpec (connections incoming : Nat) (t : String) : Risk :=
  if connections ≥ 20 ∨ t = "router" ∨ t = "config" then Risk.critical
  else if connections ≥ 10 ∨ (incoming ≥ 5 ∧ (t = "collection" ∨ t = "service")) then Risk.high
  else if connections ≥ 4 ∨ incoming ≥ 2 then Risk.medium
  else Risk.low

/-- The type factor of `cmd_risky_files` (`×1.5`, `×2.0`, `×0.1`, else `×1.0`),
as an exact rational (the spec-facing form). -/
def typeFactor (t : String) : ℚ :=
  if t = "collection" ∨ t = "service" then 3 / 2
  else if t = "router" ∨ t = "config" then 2
  else if t = "test" then 1 / 10
  else 1

/-- The same type factor scaled by 10 so that every weighted score is the
exact natural number of tenths (`1.5 → 15`, `2.0 → 20`, `0.1 → 1`, `1 → 10`).
Scores are stored in tenths: every score the code produces is a multiple of
`0.1` or `0.5`, and for such values Python float comparison agrees with
exact rational comparison, so the ordering is unchanged. -/
def typeFactorTenths (t : String) : Nat :=
  if t = "collection" ∨ t = "service" then 15
  else if t = "router" ∨ t = "config" then 20
  else if t = "test" then 1
  else 10

/-- The unweighted risk score `incoming * 3 + outgoing * 1 + total` of
`cmd_risky_files`. -/
def rawScore (g : GraphQuery) (i : String) : Nat :=
  (incomingOf g i).length * 3 + (outgoingOf g i).length * 1 + connCount g i

/-- `risk_scores` of `cmd_risky_files`, in tenths: one weighted score per
node of the table, in table (insertion) order. -/
def riskScores (g : GraphQuery) : List (String × Nat) :=
  g.nodes.map (fun n => (n.id, rawScore g n.id * typeFactorTenths n.type))

/-- Stable insertion step for a descending sort: `x` goes after every element
whose key is at least `x.2`. -/
def insertDesc (x : String × Nat) : List (String × Nat) → List (String × Nat)
  | [] => [x]
  | y :: ys => if x.2 ≤ y.2 then y :: insertDesc x ys else x :: y :: ys

/-- Stable descending sort by score, the unique stable sort computed by
`sorted(risk_scores.items(), key=lambda x: -x[1])`. -/
def sortDesc (l : List (String × Nat)) : List (String × Nat) :=
  l.foldl (fun acc x => insertDesc x acc) []

/-- The ranking of `cmd_risky_files` (before the `[:top]` truncation). -/
def rankedScores (g : GraphQuery) : List (String × Nat) :=
  sortDesc (riskScores g)

/-! ### The builder (`analyze_codebase.py`) -/

/-- `GraphBuilder` state: the node dict (as an insertion-ordered list), the
edge list, and the `_edge_set` dedup set (as a list of keys). -/
structure Builder where
  nodes : List Node
  edges : List Edge
  edgeKeys : List (String × String × String)
deriving DecidableEq, Repr

/-- A fresh `GraphBuilder`. -/
def Builder.empty : Builder := ⟨[], [], []⟩

/-- `node_id in self.nodes`. -/
def hasNode (b : Builder) (i : String) : Bool :=
  b.nodes.any (fun n => n.id == i)

/-- `GraphBuilder.add_node`: insert only if the id is not yet registered;
always return the id. -/
def addNode (b : Builder) (i label ty file : String) (line : Nat)
    (meta : List (String × String)) : Builder × String :=
  if hasNode b i then (b, i)
  else ({ b with nodes := b.nodes ++ [⟨i, label, ty, file, line, meta⟩] }, i)

/-- The edge dedup key `(source, target, type)`. -/
def edgeKey (e : Edge) : String × String × String := (e.source, e.target, e.type)

/-- `GraphBuilder.add_edge`: insert only if the key is new and the edge is not
a self-edge. -/
def addEdge (b : Builder) (s t ty : String) (meta : List (String × String)) : Builder :=
  if (s, t, ty) ∉ b.edgeKeys ∧ s ≠ t then
    { b with
      edges := b.edges ++ [⟨s, t, ty, meta⟩]
      edgeKeys := b.edgeKeys ++ [(s, t, ty)] }
  else b

/-- `DjangoURLAnalyzer.analyze_file`'s in-place mutation
`self.graph.nodes[file_id]["type"] = "router"` (guarded by membership). -/
def markRouter (b : Builder) (i : String) : Builder :=
  { b with nodes := b.nodes.map (fun n => if n.id == i then { n with type := "router" } else n) }

/-- `JSAnalyzer._analyze_exports`'s in-place mutation
`self.graph.nodes.get(fid, {}).update({"label": name})` (no-op if absent). -/
def setLabel (b : Builder) (i l : String) : Builder :=
  { b with nodes := b.nodes.map (fun n => if n.id == i then { n with label := l } else n) }

/-- The builder operations of the build pass. -/
inductive Op where
  | addN (i label ty file : String) (line : Nat) (meta : List (String × String))
  | addE (s t ty : String) (meta : List (String × String))
  | router (i : String)
  | relabel (i l : String)

/-- Apply one build-pass operation. -/
def applyOp (b : Builder) : Op → Builder
  | .addN i l ty f ln m => (addNode b i l ty f ln m).1
  | .addE s t ty m => addEdge b s t ty m
  | .router i => markRouter b i
  | .relabel i l => setLabel b i l

/-- Run a build pass from a fresh builder. -/
def runOps (ops : List Op) : Builder :=
  ops.foldl applyOp Builder.empty

/-- `GraphBuilder.to_json` restricted to the structural fields: the node dict
values in insertion order and the edge list. -/
def toSnapshot (b : Builder) : Snapshot :=
  ⟨b.nodes, b.edges⟩

/-- The builder's `_edge_set` mirrors the edge list and edge keys are unique. -/
def WfEdges (b : Builder) : Prop :=
  (∀ k, k ∈ b.edgeKeys ↔ ∃ e ∈ b.edges, edgeKey e = k) ∧ (b.edges.map edgeKey).Nodup

/-- The builder's node ids are unique (the node dict has one entry per id). -/
def WfNodes (b : Builder) : Prop :=
  (b.nodes.map Node.id).Nodup

/-! ### Direct (in-memory) computations against the builder state

The spec's round-trip property compares post-reload queries with the same
quantities computed directly on the builder's node map and edge list. -/

/-- Degree computed directly on the builder's edge list. -/
def directDegree (b : Builder) (i : String) : Nat :=
  (b.edges.filter (fun e => e.source == i)).length
    + (b.edges.filter (fun e => e.target == i)).length

/-- Incoming count computed directly on the builder's edge list. -/
def directIncoming (b : Builder) (i : String) : Nat :=
  (b.edges.filter (fun e => e.target == i)).length

/-- Node type looked up directly in the builder's node map. -/
def directType (b : Builder) (i : String) : String :=
  (((b.nodes.filter (fun n => n.id == i)).head?).map Node.type).getD ""

/-- Risk tier computed directly against the builder state. -/
def directRisk (b : Builder) (i : String) : Risk :=
  riskSpec (directDegree b i) (directIncoming b i) (directType b i)

/-- Risk-ranking scores (in tenths) computed directly against the builder
state. -/
def directScores (b : Builder) : List (String × Nat) :=
  b.nodes.map (fun n =>
    (n.id,
      (directIncoming b n.id * 3
          + (b.edges.filter (fun e => e.source == n.id)).length * 1
          + directDegree b n.id) * typeFactorTenths n.type))

/-- Risk ranking computed directly against the builder state. -/
def directRanking (b : Builder) : List (String × Nat) :=
  sortDesc (directScores b)

/-! ### Traversals

Both BFS commands (`cmd_impact`, `cmd_path`) share the discovery pattern
`if x not in visited: visited.add(x); queue.append(...)`; `discoverIds`
models one node's expansion, and a generic level-synchronous frontier theory
characterises what the queue-based loops compute. -/

/-- Process candidate neighbour ids left to right, adding unseen ones to the
visited list and returning `(newVisited, newlyDiscovered)`. -/
def discoverIds : List String → List String → List String × List String
  | [], vis => (vis, [])
  | p :: ps, vis =>
    if p ∈ vis then discoverIds ps vis
    else
      let r := discoverIds ps (vis ++ [p])
      (r.1, p :: r.2)

/-- Expand a whole frontier in order, threading the visited list. -/
def expandLevel (nb : String → List String) : List String → List String → List String × List String
  | [], vis => (vis, [])
  | x :: xs, vis =>
    let r1 := discoverIds (nb x) vis
    let r2 := expandLevel nb xs r1.1
    (r2.1, r1.2 ++ r2.2)

/-- The frontier/visited pair after `n` BFS levels from `start`:
level `0` is `[start]`, level `n+1` is what expanding level `n` discovers. -/
def frontierSeq (nb : String → List String) (start : String) : Nat → List String × List String
  | 0 => ([start], [start])
  | n + 1 =>
    let fv := frontierSeq nb start n
    let r := expandLevel nb fv.1 fv.2
    (r.2, r.1)

/-- The frontier at level `n`: nodes first discovered `n` hops from `start`. -/
def frontierAt (nb : String → List String) (start : String) (n : Nat) : List String :=
  (frontierSeq nb start n).1

/-- All nodes visited within `n` hops of `start`. -/
def visitedAt (nb : String → List String) (start : String) (n : Nat) : List String :=
  (frontierSeq nb start n).2

/-- A path of `n` neighbour steps from `start` to a node, for an adjacency
given by a neighbour-list function. -/
inductive NbPath (nb : String → List String) (start : String) : String → Nat → Prop where
  | refl : NbPath nb start start 0
  | step {y x : String} {n : Nat} :
      NbPath nb start y n → x ∈ nb y → NbPath nb start x (n + 1)

/-- All ids a loaded graph can ever visit: node ids and kept-edge endpoints. -/
def universeIds (g : GraphQuery) : List String :=
  dedupAcc [] (g.nodes.map Node.id ++ g.edges.map Edge.source ++ g.edges.map Edge.target)

/-- How many ids of the universe are not yet visited (the BFS fuel measure). -/
def unvis (g : GraphQuery) (vis : List String) : Nat :=
  ((universeIds g).filter (fun x => x ∉ vis)).length

/-- Reverse-adjacency of `cmd_impact`: the sources of the kept edges coming
into `x` (`self.incoming[x]`), in edge order. -/
def predsOf (g : GraphQuery) (x : String) : List String :=
  (incomingOf g x).map Edge.source

/-- The BFS queue loop of `cmd_impact` (fuelled; the fuel used by `cmdImpact`
is proven sufficient).  A dequeued entry deeper than `maxDepth = 3` is not
expanded; discoveries are recorded in `affected` at `depth + 1`. -/
def impactLoop (g : GraphQuery) :
    Nat → List (String × Nat) → List String → List (String × Nat) → List (String × Nat)
  | 0, _, _, aff => aff
  | _ + 1, [], _, aff => aff
  | fuel + 1, (cur, d) :: rest, vis, aff =>
    if d > 3 then impactLoop g fuel rest vis aff
    else
      let r := discoverIds (predsOf g cur) vis
      impactLoop g fuel (rest ++ r.2.map (fun x => (x, d + 1))) r.1
        (aff ++ r.2.map (fun x => (x, d + 1)))

/-- The `affected` map of `cmd_impact` for one start node: reverse BFS with
the seed queue `[(start, 0)]` and `visited = {start}`. -/
def cmdImpact (g : GraphQuery) (start : String) : List (String × Nat) :=
  impactLoop g (2 * (universeIds g).length + 2) [(start, 0)] [start] []

/-- Level-synchronous reference form of the impact loop: expand `c` more
levels, recording each level's discoveries at its depth. -/
def runLevels (nb : String → List String) :
    Nat → Nat → List String → List String → List (String × Nat) → List (String × Nat)
  | 0, _, _, _, aff => aff
  | c + 1, k, f, vis, aff =>
    let r := expandLevel nb f vis
    runLevels nb c (k + 1) r.2 r.1 (aff ++ r.2.map (fun x => (x, k + 1)))

/-- The block of impact results discovered at depth `d`. -/
def levelBlock (nb : String → List String) (start : String) (d : Nat) : List (String × Nat) :=
  (frontierAt nb start d).map (fun x => (x, d))

/-- Undirected adjacency of `cmd_path`: targets of outgoing kept edges, then
sources of incoming kept edges. -/
def neighborsOf (g : GraphQuery) (x : String) : List String :=
  (outgoingOf g x).map Edge.target ++ (incomingOf g x).map Edge.source

/-- Two ids are adjacent when some kept edge joins them, in either
direction. -/
def adj (g : GraphQuery) (x y : String) : Prop :=
  ∃ e ∈ g.edges, (e.source = x ∧ e.target = y) ∨ (e.source = y ∧ e.target = x)

/-- An undirected path through kept edges, as the node list the search
returns: it starts at `start` and ends at the indexed node. -/
inductive PathList (g : GraphQuery) (start : String) : List String → String → Prop where
  | single : PathList g start [start] start
  | snoc {p : List String} {x y : String} :
      PathList g start p x → adj g x y → PathList g start (p ++ [y]) y

/-- The BFS queue loop of `cmd_path` (fuelled; the fuel used by `cmdPath` is
proven sufficient).  Entries carry their full path; the first dequeued id in
the target set returns its path; after each expansion, more than 500 visited
nodes aborts with no result. -/
def pathLoop (g : GraphQuery) (targets : List String) :
    Nat → List (String × List String) → List String → Option (List String)
  | 0, _, _ => none
  | _ + 1, [], _ => none
  | fuel + 1, (cur, p) :: rest, vis =>
    if cur ∈ targets then some p
    else
      let r := discoverIds (neighborsOf g cur) vis
      if r.1.length > 500 then none
      else pathLoop g targets fuel (rest ++ r.2.map (fun x => (x, p ++ [x]))) r.1

/-- The path search of `cmd_path` from a start id to a target id set:
`some path` or `none` (= "no path found"). -/
def cmdPath (g : GraphQuery) (start : String) (targets : List String) : Option (List String) :=
  pathLoop g targets (2 * (universeIds g).length + 2) [(start, [start])] [start]

/-- One level of `cmd_path` processing: dequeue entries in order, returning
at the first target, aborting on the 500-visited cap, otherwise accumulating
the next level. -/
def processLevel (g : GraphQuery) (targets : List String) :
    List (String × List String) → List String → List (String × List String) →
      Option (List String) ⊕ (List String × List (String × List String))
  | [], vis, acc => Sum.inr (vis, acc)
  | (cur, p) :: rest, vis, acc =>
    if cur ∈ targets then Sum.inl (some p)
    else
      let r := discoverIds (neighborsOf g cur) vis
      if r.1.length > 500 then Sum.inl none
      else processLevel g targets rest r.1 (acc ++ r.2.map (fun x => (x, p ++ [x])))

/-- Level-synchronous reference form of the path loop. -/
def runPathLevels (g : GraphQuery) (targets : List String) :
    Nat → List (String × List String) → List String → Option (List String)
  | 0, _, _ => none
  | c + 1, entries, vis =>
    match entries with
    | [] => none
    | _ :: _ =>
      match processLevel g targets entries vis [] with
      | Sum.inl res => res
      | Sum.inr (v', next) => runPathLevels g targets c next v'

/-! ### Concrete instances used by witnesses and counterexamples -/

/-- A file node with the given id and no further data. -/
def fileNode (i : String) : Node := ⟨i, i, "file", "", 0, []⟩

/-- An `imports` edge with no metadata. -/
def impEdge (s t : String) : Edge := ⟨s, t, "imports", []⟩

/-- A snapshot with a single zero-edge router node. -/
def riskCxSnap : Snapshot := ⟨[⟨"r", "r", "router", "", 0, []⟩], []⟩

/-- A snapshot whose node `a` has 20 connections and type `file`. -/
def w20Snap : Snapshot :=
  ⟨fileNode "a" :: (List.range 20).map (fun k => fileNode ("b" ++ toString k)),
   (List.range 20).map (fun k => impEdge "a" ("b" ++ toString k))⟩

/-- A snapshot with one kept edge `a → b` and one ghost edge `a → c`. -/
def ghostSnap : Snapshot :=
  ⟨[fileNode "a", fileNode "b"], [impEdge "a" "b", impEdge "a" "c"]⟩

/-- A builder holding one node `a` of type `file`. -/
def oneNodeBuilder : Builder :=
  (addNode Builder.empty "a" "lbl" "file" "f.py" 1 []).1

/-- The weighted risk score of one node entry, in tenths. -/
def scoreOf (g : GraphQuery) (n : Node) : Nat :=
  rawScore g n.id * typeFactorTenths n.type

/-- A snapshot where the file node `a` and the router node `r` have equal
degree but tie on weighted score (`a` all-incoming, `r` all-outgoing). -/
def cx4Snap : Snapshot :=
  ⟨[fileNode "a", ⟨"r", "r", "router", "", 0, []⟩, fileNode "x", fileNode "y"],
   [impEdge "x" "a", impEdge "r" "y"]⟩

/-- A snapshot where a router and a file node have identical incoming and
outgoing counts (one outgoing edge each). -/
def rankWSnap : Snapshot :=
  ⟨[fileNode "f", ⟨"r", "r", "router", "", 0, []⟩, fileNode "z"],
   [impEdge "f" "z", impEdge "r" "z"]⟩

/-- Every edge endpoint of the builder refers to a registered node (no ghost
edges in the builder itself). -/
def NoGhost (b : Builder) : Prop :=
  ∀ e ∈ b.edges, hasNodeId b.nodes e.source = true ∧ hasNodeId b.nodes e.target = true

/-- A two-node snapshot where `b` imports `a` (one reverse hop from `a`). -/
def impactWSnap : Snapshot := ⟨[fileNode "a", fileNode "b"], [impEdge "b" "a"]⟩

/-- A two-node snapshot where `a` imports `b`. -/
def pathWSnap : Snapshot := ⟨[fileNode "a", fileNode "b"], [impEdge "a" "b"]⟩

/-- The string of `n` letters `a`; distinct lengths give distinct ids. -/
def aStr (n : Nat) : String := String.mk (List.replicate n 'a')

/-- 501 distinct node ids. -/
def aIds : List String := (List.range 501).map (fun k => aStr (k + 1))

/-- A star snapshot: `s0` points at 501 distinct neighbours, and the first
neighbour `aStr 1` points at `t`, so a path `s0 → aStr 1 → t` exists but
expanding `s0` already visits 502 nodes and trips the 500 cap. -/
def capSnap : Snapshot :=
  ⟨fileNode "s0" :: fileNode "t" :: aIds.map fileNode,
   impEdge (aStr 1) "t" :: aIds.map (fun i => impEdge "s0" i)⟩

/-- The target set of the capped search. -/
def capTargets : List String := ["t"]

/-- A ghost-free build pass: two nodes and one edge between them. -/
def rtOps : List Op :=
  [Op.addN "a" "a" "file" "" 0 [], Op.addN "b" "b" "service" "" 0 [],
   Op.addE "a" "b" "imports" []]

/-- A build pass inserting an edge whose target `b` is never registered. -/
def rtCxOps : List Op :=
  [Op.addN "a" "a" "file" "" 0 [], Op.addE "a" "b" "imports" []]

end CodeGraph

namespace CodeGraph

theorem connFold_eq (l : List Edge) (i : String) (acc : Nat) :
    l.foldl
      (fun acc e => acc + (if e.source == i then 1 else 0) + (if e.target == i then 1 else 0))
      acc
    = acc + (l.filter (fun e => e.source == i)).length
        + (l.filter (fun e => e.target == i)).length := by
  induction l generalizing acc with
  | nil => simp
  | cons e l ih =>
    rw [List.foldl_cons, ih]
    by_cases hs : (e.source == i) = true <;> by_cases ht : (e.target == i) = true <;>
      simp [List.filter_cons, hs, ht, Bool.not_eq_true] at * <;> omega

/-- The Counter-based connection count equals the spec's degree. -/
theorem connCount_eq_degree (g : GraphQuery) (i : String) :
    connCount g i = degree g i := by
  unfold connCount degree outgoingOf incomingOf
  simpa using connFold_eq g.edges i 0

theorem hasNodeId_iff (ns : List Node) (i : String) :
    hasNodeId ns i = true ↔ ∃ n ∈ ns, n.id = i := by
  simp [hasNodeId, List.any_eq_true, beq_iff_eq]

theorem mem_keptEdges (s : Snapshot) (e : Edge) :
    e ∈ keptEdges s ↔
      e ∈ s.edges ∧ (∃ n ∈ s.nodes, n.id = e.source) ∧ (∃ n ∈ s.nodes, n.id = e.target) := by
  simp [keptEdges, List.mem_filter, ← hasNodeId_iff, and_assoc]

theorem ghost_count_eq (s : Snapshot) :
    (loadGraph s).ghostEdges
      = (s.edges.filter
          (fun e => !(hasNodeId s.nodes e.source && hasNodeId s.nodes e.target))).length := by
  have h := List.length_eq_length_filter_add (l := s.edges)
    (f := fun e => hasNodeId s.nodes e.source && hasNodeId s.nodes e.target)
  simp only [loadGraph, keptEdges] at *
  omega

theorem mem_indexNodes_sub {ns : List Node} {n : Node} (h : n ∈ indexNodes ns) : n ∈ ns := by
  unfold indexNodes at h
  obtain ⟨i, _, hl⟩ := List.mem_filterMap.mp h
  unfold lastWithId at hl
  obtain ⟨hne, heq⟩ := List.mem_getLast?_eq_getLast (l := ns.filter (fun n => n.id == i))
    (x := n) (by rw [Option.mem_def]; exact hl)
  have hmem : n ∈ ns.filter (fun n => n.id == i) := heq ▸ List.getLast_mem hne
  exact (List.mem_filter.mp hmem).1

theorem keptEdges_src {s : Snapshot} {e : Edge} (h : e ∈ keptEdges s) :
    hasNodeId s.nodes e.source = true := by
  have := (List.mem_filter.mp h).2
  exact (Bool.and_eq_true _ _ |>.mp this).1

theorem keptEdges_tgt {s : Snapshot} {e : Edge} (h : e ∈ keptEdges s) :
    hasNodeId s.nodes e.target = true := by
  have := (List.mem_filter.mp h).2
  exact (Bool.and_eq_true _ _ |>.mp this).2

theorem absent_outgoing {s : Snapshot} {i : String} (h : hasNodeId s.nodes i = false) :
    outgoingOf (loadGraph s) i = [] := by
  refine List.filter_eq_nil_iff.mpr (fun e he => ?_)
  have hk : e ∈ keptEdges s := he
  intro hb
  have : e.source = i := by simpa using hb
  rw [← this] at h
  rw [keptEdges_src hk] at h
  exact Bool.noConfusion h

theorem absent_incoming {s : Snapshot} {i : String} (h : hasNodeId s.nodes i = false) :
    incomingOf (loadGraph s) i = [] := by
  refine List.filter_eq_nil_iff.mpr (fun e he => ?_)
  have hk : e ∈ keptEdges s := he
  intro hb
  have : e.target = i := by simpa using hb
  rw [← this] at h
  rw [keptEdges_tgt hk] at h
  exact Bool.noConfusion h

theorem absent_lookup {s : Snapshot} {i : String} (h : hasNodeId s.nodes i = false) :
    lookupNode (loadGraph s) i = none := by
  unfold lookupNode
  have : (loadGraph s).nodes.filter (fun n => n.id == i) = [] := by
    refine List.filter_eq_nil_iff.mpr (fun n hn => ?_)
    intro hb
    have hid : n.id = i := by simpa using hb
    have hmem : n ∈ s.nodes := mem_indexNodes_sub hn
    have : hasNodeId s.nodes i = true := (hasNodeId_iff _ _).mpr ⟨n, hmem, hid⟩
    rw [this] at h
    exact Bool.noConfusion h
  rw [this]
  rfl

/-- The code's rule list agrees with the spec's rule list evaluated at
`connections = degree`, `incoming = |incoming|` and the node's type. -/
theorem risk_eq_spec (g : GraphQuery) (i : String) :
    getRiskLevel g i = riskSpec (degree g i) (incomingOf g i).length (nodeType g i) := by
  simp [getRiskLevel, riskSpec, connCount_eq_degree]

/-- C3: at load time an edge is kept iff both endpoints exist; ghosts are
excluded from the adjacency lists, counted exactly once (kept + ghost =
total), and no error is raised (loading is a total function). -/
theorem ghost_edge_filtering (s : Snapshot) :
    (∀ e : Edge, e ∈ (loadGraph s).edges ↔
        e ∈ s.edges ∧ (∃ n ∈ s.nodes, n.id = e.source) ∧ (∃ n ∈ s.nodes, n.id = e.target))
    ∧ (loadGraph s).ghostEdges
        = (s.edges.filter
            (fun e => !(hasNodeId s.nodes e.source && hasNodeId s.nodes e.target))).length
    ∧ (loadGraph s).edges.length + (loadGraph s).ghostEdges = s.edges.length
    ∧ (∀ i : String, ∀ e : Edge,
        e ∈ outgoingOf (loadGraph s) i ∨ e ∈ incomingOf (loadGraph s) i → e ∈ keptEdges s) := by
  refine ⟨fun e => mem_keptEdges s e, ghost_count_eq s, ?_, ?_⟩
  · have h := List.length_eq_length_filter_add (l := s.edges)
      (f := fun e => hasNodeId s.nodes e.source && hasNodeId s.nodes e.target)
    simp only [loadGraph, keptEdges] at *
    omega
  · intro i e he
    rcases he with he | he
    · exact (List.mem_filter.mp he).1
    · exact (List.mem_filter.mp he).1

/-- Witness for C3 on a concrete snapshot with one ghost edge. -/
theorem ghost_edge_filtering_witness :
    impEdge "a" "b" ∈ keptEdges ghostSnap ∧ (loadGraph ghostSnap).ghostEdges = 1 := by
  constructor
  · exact (ghost_edge_filtering ghostSnap).2.2.2 "a" (impEdge "a" "b") (Or.inl (by decide))
  · rw [(ghost_edge_filtering ghostSnap).2.1]
    decide

/-- C10: the risk classifier is total over arbitrary ids; an id absent from
the node set has zero connections, zero incoming, empty type, and tier LOW. -/
theorem risk_total_absent_id (s : Snapshot) (i : String)
    (h : hasNodeId s.nodes i = false) :
    connCount (loadGraph s) i = 0
    ∧ incomingOf (loadGraph s) i = []
    ∧ nodeType (loadGraph s) i = ""
    ∧ getRiskLevel (loadGraph s) i = Risk.low := by
  have hout := absent_outgoing h
  have hin := absent_incoming h
  have hty : nodeType (loadGraph s) i = "" := by
    unfold nodeType
    rw [absent_lookup h]
    rfl
  have hc : connCount (loadGraph s) i = 0 := by
    rw [connCount_eq_degree]
    unfold degree
    rw [hout, hin]
    rfl
  refine ⟨hc, hin, hty, ?_⟩
  rw [risk_eq_spec]
  have hd : degree (loadGraph s) i = 0 := by rw [← connCount_eq_degree]; exact hc
  rw [hd, hin, hty]
  decide

/-- Witness for C10 at a concrete absent id. -/
theorem risk_total_absent_id_witness :
    getRiskLevel (loadGraph ghostSnap) "zz" = Risk.low :=
  (risk_total_absent_id ghostSnap "zz" (by decide)).2.2.2

/-- C1 (amended): the classifier equals the spec's ordered rule list at
`connections = degree` and `incoming = |incoming|`; a node with 20
connections and type `file` is CRITICAL; a node with 10 connections and type
`router` is CRITICAL; and a zero-edge node whose type is neither `router`
nor `config` is LOW. -/
theorem risk_classifier_rules (g : GraphQuery) (i : String) :
    getRiskLevel g i = riskSpec (degree g i) (incomingOf g i).length (nodeType g i)
    ∧ (connCount g i = 20 → nodeType g i = "file" → getRiskLevel g i = Risk.critical)
    ∧ (connCount g i = 10 → nodeType g i = "router" → getRiskLevel g i = Risk.critical)
    ∧ (degree g i = 0 → nodeType g i ≠ "router" → nodeType g i ≠ "config" →
        getRiskLevel g i = Risk.low) := by
  refine ⟨risk_eq_spec g i, ?_, ?_, ?_⟩
  · intro hc ht
    have hd : degree g i = 20 := by rw [← connCount_eq_degree]; exact hc
    rw [risk_eq_spec, hd, ht]
    simp [riskSpec]
  · intro hc ht
    rw [risk_eq_spec, ht]
    simp [riskSpec]
  · intro hd hr hcfg
    have hin : (incomingOf g i).length = 0 := by
      unfold degree at hd
      omega
    rw [risk_eq_spec, hd, hin]
    simp [riskSpec, hr, hcfg]

/-- Witness for C1 on a node with 20 connections and type `file`. -/
theorem risk_classifier_rules_witness :
    getRiskLevel (loadGraph w20Snap) "a" = Risk.critical :=
  (risk_classifier_rules (loadGraph w20Snap) "a").2.1 (by decide) (by decide)

/-- Counterexample to C1 as stated: a node with zero edges need not be LOW —
a zero-edge `router` node is CRITICAL (rule 1 fires on the type alone). -/
theorem risk_zero_edges_not_low :
    degree (loadGraph riskCxSnap) "r" = 0
    ∧ getRiskLevel (loadGraph riskCxSnap) "r" = Risk.critical
    ∧ Risk.critical ≠ Risk.low := by
  decide

/-! ### Builder lemmas -/

theorem addEdge_self (b : Builder) (i ty : String) (m : List (String × String)) :
    addEdge b i i ty m = b := by
  unfold addEdge
  rw [if_neg]
  intro h
  exact h.2 rfl

theorem addEdge_edges_cases (b : Builder) (s t ty : String) (m : List (String × String)) :
    (addEdge b s t ty m).edges = b.edges
    ∨ ((addEdge b s t ty m).edges = b.edges ++ [⟨s, t, ty, m⟩] ∧ s ≠ t) := by
  unfold addEdge
  by_cases h : (s, t, ty) ∉ b.edgeKeys ∧ s ≠ t
  · rw [if_pos h]
    exact Or.inr ⟨rfl, h.2⟩
  · rw [if_neg h]
    exact Or.inl rfl

theorem addEdge_mem_noop {b : Builder} {s t ty : String} (m : List (String × String))
    (hk : (s, t, ty) ∈ b.edgeKeys) : addEdge b s t ty m = b := by
  unfold addEdge
  rw [if_neg]
  intro hcon
  exact hcon.1 hk

theorem addEdge_new {b : Builder} {s t ty : String} (m : List (String × String))
    (hk : (s, t, ty) ∉ b.edgeKeys) (hst : s ≠ t) :
    addEdge b s t ty m
      = ⟨b.nodes, b.edges ++ [⟨s, t, ty, m⟩], b.edgeKeys ++ [(s, t, ty)]⟩ := by
  unfold addEdge
  rw [if_pos ⟨hk, hst⟩]

theorem applyOp_no_self_edge {b : Builder} {e : Edge} (op : Op)
    (h : e ∈ (applyOp b op).edges) : e ∈ b.edges ∨ e.source ≠ e.target := by
  cases op with
  | addN i l ty f ln m =>
    left
    simp only [applyOp] at h
    unfold addNode at h
    split at h <;> simpa using h
  | addE s t ty m =>
    simp only [applyOp] at h
    rcases addEdge_edges_cases b s t ty m with hc | hc
    · rw [hc] at h
      exact Or.inl h
    · rw [hc.1] at h
      rcases List.mem_append.mp h with h1 | h1
      · exact Or.inl h1
      · right
        have : e = ⟨s, t, ty, m⟩ := by simpa using h1
        subst this
        exact hc.2
  | router i =>
    left
    simp only [applyOp, markRouter] at h
    exact h
  | relabel i l =>
    left
    simp only [applyOp, setLabel] at h
    exact h

theorem foldl_no_self_edge (ops : List Op) (b : Builder)
    (hb : ∀ e ∈ b.edges, e.source ≠ e.target) :
    ∀ e ∈ (ops.foldl applyOp b).edges, e.source ≠ e.target := by
  induction ops generalizing b with
  | nil => exact hb
  | cons op ops ih =>
    intro e he
    refine ih (applyOp b op) (fun e' he' => ?_) e he
    rcases applyOp_no_self_edge op he' with h | h
    · exact hb e' h
    · exact h

/-- C6: self-edges are rejected at insertion (`addEdge(A,A,t)` is a complete
no-op), and no edge with `source = target` ever appears in the builder state
reachable by any sequence of build-pass operations (hence in the export). -/
theorem self_edges_rejected :
    (∀ (b : Builder) (i ty : String) (m : List (String × String)), addEdge b i i ty m = b)
    ∧ (∀ ops : List Op, ∀ e ∈ (toSnapshot (runOps ops)).edges, e.source ≠ e.target) := by
  refine ⟨addEdge_self, fun ops e he => ?_⟩
  exact foldl_no_self_edge ops Builder.empty (by intro e h; cases h) e he

/-- Witness for C6: a concrete self-edge insertion is dropped, and a concrete
run containing `addEdge(a,b)` exports only non-self edges. -/
theorem self_edges_rejected_witness :
    addEdge Builder.empty "a" "a" "calls" [] = Builder.empty
    ∧ (Edge.mk "a" "b" "imports" []).source ≠ (Edge.mk "a" "b" "imports" []).target := by
  constructor
  · exact self_edges_rejected.1 Builder.empty "a" "calls" []
  · exact self_edges_rejected.2 [Op.addE "a" "b" "imports" []]
      (Edge.mk "a" "b" "imports" []) (by decide)

theorem filterKey_le_one (l : List Edge) (hl : (l.map edgeKey).Nodup)
    (k : String × String × String) :
    (l.filter (fun e => edgeKey e == k)).length ≤ 1 := by
  induction l with
  | nil => simp
  | cons e l ih =>
    rw [List.map_cons, List.nodup_cons] at hl
    by_cases h : edgeKey e = k
    · have hnil : l.filter (fun e => edgeKey e == k) = [] := by
        refine List.filter_eq_nil_iff.mpr (fun e' he' hb => ?_)
        have hek : edgeKey e' = k := by simpa using hb
        exact hl.1 (List.mem_map.mpr ⟨e', he', by rw [hek, h]⟩)
      simp [List.filter_cons, h, hnil]
    · simpa [List.filter_cons, h] using ih hl.2

theorem filterKey_pos (l : List Edge) (e : Edge) (k : String × String × String)
    (he : e ∈ l) (hk : edgeKey e = k) :
    0 < (l.filter (fun e => edgeKey e == k)).length := by
  have hmem : e ∈ l.filter (fun e => edgeKey e == k) :=
    List.mem_filter.mpr ⟨he, by simp [hk]⟩
  exact List.length_pos.mpr (List.ne_nil_of_mem hmem)

theorem wfEdges_empty : WfEdges Builder.empty := by
  constructor
  · intro k
    constructor
    · intro h
      cases h
    · rintro ⟨e, he, -⟩
      cases he
  · exact List.Pairwise.nil

theorem wfEdges_addEdge {b : Builder} (hb : WfEdges b) (s t ty : String)
    (m : List (String × String)) : WfEdges (addEdge b s t ty m) := by
  unfold addEdge
  by_cases h : (s, t, ty) ∉ b.edgeKeys ∧ s ≠ t
  · rw [if_pos h]
    constructor
    · intro k
      simp only [List.mem_append, List.mem_singleton]
      constructor
      · rintro (hk | hk)
        · obtain ⟨e, he, hke⟩ := (hb.1 k).mp hk
          exact ⟨e, Or.inl he, hke⟩
        · exact ⟨⟨s, t, ty, m⟩, Or.inr rfl, hk.symm⟩
      · rintro ⟨e, he | he, hke⟩
        · exact Or.inl ((hb.1 k).mpr ⟨e, he, hke⟩)
        · subst he
          exact Or.inr hke.symm
    · rw [List.map_append]
      rw [List.nodup_append]
      refine ⟨hb.2, List.nodup_singleton _, ?_⟩
      intro k hk hk1
      have : k = (s, t, ty) := by simpa [edgeKey] using hk1
      subst this
      obtain ⟨e, he, hke⟩ := List.mem_map.mp hk
      exact h.1 ((hb.1 _).mpr ⟨e, he, hke⟩)
  · rw [if_neg h]
    exact hb

theorem wfEdges_applyOp {b : Builder} (hb : WfEdges b) (op : Op) :
    WfEdges (applyOp b op) := by
  cases op with
  | addN i l ty f ln m =>
    simp only [applyOp]
    unfold addNode
    split <;> exact hb
  | addE s t ty m =>
    simp only [applyOp]
    exact wfEdges_addEdge hb s t ty m
  | router i => exact hb
  | relabel i l => exact hb

theorem wfEdges_runOps (ops : List Op) : WfEdges (runOps ops) := by
  have h : ∀ b : Builder, WfEdges b → WfEdges (ops.foldl applyOp b) := by
    induction ops with
    | nil => exact fun b hb => hb
    | cons op ops ih => exact fun b hb => ih (applyOp b op) (wfEdges_applyOp hb op)
  exact h Builder.empty wfEdges_empty

/-- C5 (amended): edge insertion is state-idempotent on the key
`(source, target, type)`; for `source ≠ target` a well-formed builder holds
exactly one edge with that key after insertion; an insertion either leaves
the edge list unchanged or appends at the end (first-insertion order is
preserved); and every reachable builder is well-formed. -/
theorem edge_insertion_idempotent :
    (∀ (b : Builder) (s t ty : String) (m m' : List (String × String)),
        addEdge (addEdge b s t ty m) s t ty m' = addEdge b s t ty m)
    ∧ (∀ (b : Builder) (s t ty : String) (m : List (String × String)), WfEdges b → s ≠ t →
        ((addEdge b s t ty m).edges.filter (fun e => edgeKey e == (s, t, ty))).length = 1)
    ∧ (∀ (b : Builder) (s t ty : String) (m : List (String × String)),
        (addEdge b s t ty m).edges = b.edges
          ∨ (addEdge b s t ty m).edges = b.edges ++ [⟨s, t, ty, m⟩])
    ∧ (∀ ops : List Op, WfEdges (runOps ops)) := by
  refine ⟨?_, ?_, ?_, wfEdges_runOps⟩
  · intro b s t ty m m'
    by_cases hst : s = t
    · subst hst
      rw [addEdge_self, addEdge_self]
    · by_cases hk : (s, t, ty) ∈ b.edgeKeys
      · rw [addEdge_mem_noop m hk, addEdge_mem_noop m' hk]
      · rw [addEdge_new m hk hst]
        exact addEdge_mem_noop m' (by simp)
  · intro b s t ty m hb hst
    have hwf : WfEdges (addEdge b s t ty m) := wfEdges_addEdge hb s t ty m
    have hle := filterKey_le_one (addEdge b s t ty m).edges hwf.2 (s, t, ty)
    have hkmem : (s, t, ty) ∈ (addEdge b s t ty m).edgeKeys := by
      by_cases hk : (s, t, ty) ∈ b.edgeKeys
      · rw [addEdge_mem_noop m hk]
        exact hk
      · rw [addEdge_new m hk hst]
        simp
    obtain ⟨e, he, hke⟩ := (hwf.1 _).mp hkmem
    have hpos := filterKey_pos (addEdge b s t ty m).edges e (s, t, ty) he hke
    omega
  · intro b s t ty m
    rcases addEdge_edges_cases b s t ty m with h | h
    · exact Or.inl h
    · exact Or.inr h.1

/-- Witness for C5: inserting `a → b` twice on a fresh builder is idempotent
and leaves exactly one edge with that key. -/
theorem edge_insertion_idempotent_witness :
    addEdge (addEdge Builder.empty "a" "b" "imports" []) "a" "b" "imports" []
      = addEdge Builder.empty "a" "b" "imports" []
    ∧ ((addEdge (runOps []) "a" "b" "imports" []).edges.filter
        (fun e => edgeKey e == ("a", "b", "imports"))).length = 1 := by
  constructor
  · exact edge_insertion_idempotent.1 Builder.empty "a" "b" "imports" [] []
  · exact edge_insertion_idempotent.2.1 (runOps []) "a" "b" "imports" []
      (edge_insertion_idempotent.2.2.2 []) (by decide)

/-- Counterexample to C5 as stated: with `source = target` the double
insertion yields zero edges with that key in the export, not one. -/
theorem edge_insertion_self_zero :
    ((toSnapshot (addEdge (addEdge Builder.empty "a" "a" "imports" []) "a" "a" "imports" [])).edges.filter
        (fun e => edgeKey e == ("a", "a", "imports"))).length = 0
    ∧ (0 : Nat) ≠ 1 := by
  decide

/-- C7 (amended): `addNode` on an already-registered id is a complete no-op
returning the id, even when the later call supplies different label, type,
file, line or metadata. -/
theorem add_node_first_wins (b : Builder) (i l ty f : String) (ln : Nat)
    (m : List (String × String)) (h : hasNode b i = true) :
    addNode b i l ty f ln m = (b, i) := by
  unfold addNode
  rw [if_pos h]

/-- Witness for C7 on a concrete re-registration with different data. -/
theorem add_node_first_wins_witness :
    addNode oneNodeBuilder "a" "other" "router" "g.py" 5 [] = (oneNodeBuilder, "a") :=
  add_node_first_wins oneNodeBuilder "a" "other" "router" "g.py" 5 [] (by decide)

/-- Counterexample to C7 as stated: two build-pass operations do update
fields of a node after its first insertion — the Django URL analyzer
overwrites its type to `router`, and the JS export analyzer overwrites its
label. -/
theorem build_pass_updates_fields :
    oneNodeBuilder.nodes = [⟨"a", "lbl", "file", "f.py", 1, []⟩]
    ∧ (markRouter oneNodeBuilder "a").nodes = [⟨"a", "lbl", "router", "f.py", 1, []⟩]
    ∧ (setLabel oneNodeBuilder "a" "App").nodes = [⟨"a", "App", "file", "f.py", 1, []⟩] := by
  decide

/-! ### Risk-ranking lemmas -/

theorem insertDesc_perm (x : String × Nat) (l : List (String × Nat)) :
    (insertDesc x l).Perm (x :: l) := by
  induction l with
  | nil => exact List.Perm.refl _
  | cons y ys ih =>
    unfold insertDesc
    by_cases h : x.2 ≤ y.2
    · rw [if_pos h]
      exact (ih.cons y).trans (List.Perm.swap x y ys)
    · rw [if_neg h]

theorem mem_insertDesc {z x : String × Nat} {l : List (String × Nat)} :
    z ∈ insertDesc x l ↔ z = x ∨ z ∈ l := by
  constructor
  · intro h
    have := (insertDesc_perm x l).mem_iff.mp h
    simpa using this
  · intro h
    refine (insertDesc_perm x l).mem_iff.mpr ?_
    simpa using h

theorem insertDesc_sorted (x : String × Nat) (l : List (String × Nat))
    (hl : l.Pairwise (fun a b => b.2 ≤ a.2)) :
    (insertDesc x l).Pairwise (fun a b => b.2 ≤ a.2) := by
  induction l with
  | nil => simp [insertDesc]
  | cons y ys ih =>
    rw [List.pairwise_cons] at hl
    unfold insertDesc
    by_cases h : x.2 ≤ y.2
    · rw [if_pos h]
      rw [List.pairwise_cons]
      refine ⟨fun z hz => ?_, ih hl.2⟩
      rcases mem_insertDesc.mp hz with hz | hz
      · subst hz
        exact h
      · exact hl.1 z hz
    · rw [if_neg h]
      rw [List.pairwise_cons]
      refine ⟨fun z hz => ?_, List.pairwise_cons.mpr hl⟩
      rcases List.mem_cons.mp hz with hz | hz
      · subst hz
        exact le_of_not_le h
      · exact le_trans (hl.1 z hz) (le_of_not_le h)

theorem sortDesc_foldl_perm (l : List (String × Nat)) :
    ∀ acc : List (String × Nat),
      (l.foldl (fun acc x => insertDesc x acc) acc).Perm (acc ++ l) := by
  induction l with
  | nil => intro acc; simp
  | cons x xs ih =>
    intro acc
    rw [List.foldl_cons]
    refine (ih (insertDesc x acc)).trans ?_
    have h1 : ((insertDesc x acc) ++ xs).Perm ((x :: acc) ++ xs) :=
      List.Perm.append_right xs (insertDesc_perm x acc)
    have h2 : (acc ++ x :: xs).Perm (x :: (acc ++ xs)) := List.perm_middle
    exact h1.trans h2.symm

theorem sortDesc_perm (l : List (String × Nat)) : (sortDesc l).Perm l := by
  simpa using sortDesc_foldl_perm l []

theorem sortDesc_foldl_sorted (l : List (String × Nat)) :
    ∀ acc : List (String × Nat), acc.Pairwise (fun a b => b.2 ≤ a.2) →
      (l.foldl (fun acc x => insertDesc x acc) acc).Pairwise (fun a b => b.2 ≤ a.2) := by
  induction l with
  | nil => exact fun acc h => h
  | cons x xs ih =>
    intro acc hacc
    rw [List.foldl_cons]
    exact ih (insertDesc x acc) (insertDesc_sorted x acc hacc)

theorem sortDesc_sorted (l : List (String × Nat)) :
    (sortDesc l).Pairwise (fun a b => b.2 ≤ a.2) :=
  sortDesc_foldl_sorted l [] List.Pairwise.nil

theorem filter_insertDesc (x : String × Nat) (l : List (String × Nat)) (q : Nat)
    (hl : l.Pairwise (fun a b => b.2 ≤ a.2)) :
    (insertDesc x l).filter (fun z => z.2 == q)
      = if x.2 = q then l.filter (fun z => z.2 == q) ++ [x]
        else l.filter (fun z => z.2 == q) := by
  induction l with
  | nil =>
    by_cases h : x.2 = q
    · simp [insertDesc, List.filter_cons, h]
    · have hb : (x.2 == q) = false := beq_eq_false_iff_ne.mpr h
      simp [insertDesc, List.filter_cons, hb, h]
  | cons y ys ih =>
    rw [List.pairwise_cons] at hl
    unfold insertDesc
    by_cases h : x.2 ≤ y.2
    · rw [if_pos h]
      rw [List.filter_cons, List.filter_cons]
      by_cases hy : y.2 = q <;> by_cases hx : x.2 = q <;>
        simp [hy, hx, ih hl.2]
    · rw [if_neg h]
      have hnone : (y :: ys).filter (fun z => z.2 == q) = [] ∨ x.2 ≠ q := by
        by_cases hx : x.2 = q
        · left
          refine List.filter_eq_nil_iff.mpr (fun z hz hb => ?_)
          have hzq : z.2 = q := by simpa using hb
          have hzy : z.2 ≤ y.2 := by
            rcases List.mem_cons.mp hz with hz | hz
            · subst hz; exact le_refl _
            · exact hl.1 z hz
          exact h (by rw [hx, ← hzq]; exact hzy)
        · exact Or.inr hx
      by_cases hx : x.2 = q
      · rcases hnone with hnil | hne
        · rw [List.filter_cons, if_pos (by simpa using hx), hnil]
          simp [hx]
        · exact absurd hx hne
      · rw [List.filter_cons, if_neg (by simpa using hx), if_neg hx]

theorem sortDesc_foldl_filter (l : List (String × Nat)) (q : Nat) :
    ∀ acc : List (String × Nat), acc.Pairwise (fun a b => b.2 ≤ a.2) →
      (l.foldl (fun acc x => insertDesc x acc) acc).filter (fun z => z.2 == q)
        = acc.filter (fun z => z.2 == q) ++ l.filter (fun z => z.2 == q) := by
  induction l with
  | nil => intro acc _; simp
  | cons x xs ih =>
    intro acc hacc
    rw [List.foldl_cons, ih (insertDesc x acc) (insertDesc_sorted x acc hacc),
      filter_insertDesc x acc q hacc]
    rw [List.filter_cons]
    by_cases hx : x.2 = q
    · rw [if_pos hx, if_pos (by simpa using hx)]
      simp
    · rw [if_neg hx, if_neg (by simpa using hx)]

theorem sortDesc_stable (l : List (String × Nat)) (q : Nat) :
    (sortDesc l).filter (fun z => z.2 == q) = l.filter (fun z => z.2 == q) := by
  simpa using sortDesc_foldl_filter l q [] List.Pairwise.nil

theorem sorted_get_lt {l : List (String × Nat)}
    (hl : l.Pairwise (fun a b => b.2 ≤ a.2)) (kx ky : Nat)
    (hx : kx < l.length) (hy : ky < l.length)
    (hlt : (l.get ⟨kx, hx⟩).2 < (l.get ⟨ky, hy⟩).2) : ky < kx := by
  by_contra hcon
  push_neg at hcon
  rcases Nat.lt_or_ge kx ky with hk | hk
  · have := (List.pairwise_iff_get.mp hl) ⟨kx, hx⟩ ⟨ky, hy⟩ hk
    exact absurd (lt_of_lt_of_le hlt this) (lt_irrefl _)
  · have hkk : kx = ky := le_antisymm hcon hk
    subst hkk
    exact absurd hlt (lt_irrefl _)

/-- The tenths-scaled factor is ten times the spec's rational factor. -/
theorem typeFactorTenths_eq (t : String) :
    (typeFactorTenths t : ℚ) = typeFactor t * 10 := by
  unfold typeFactorTenths typeFactor
  split_ifs <;> norm_num

/-- C4 (amended): every node's weighted score equals
`(incoming*3 + outgoing*1 + degree) * typeFactor` (stored in tenths, i.e.
scaled by the fixed positive factor 10, which preserves order and ties); the
ranking is a permutation of the scored list, descending by score, with ties
kept in original insertion order (stable sort, hence reproducible); a
strictly smaller score ranks strictly later; and a `router` node scores
strictly above a `file` node with the same incoming and outgoing counts and
at least one connection. -/
theorem risk_ranking_stable (g : GraphQuery) :
    (∀ n : Node, ((rawScore g n.id * typeFactorTenths n.type : Nat) : ℚ)
        = (((incomingOf g n.id).length * 3 + (outgoingOf g n.id).length * 1
              + degree g n.id : Nat) : ℚ) * typeFactor n.type * 10)
    ∧ riskScores g = g.nodes.map (fun n => (n.id, rawScore g n.id * typeFactorTenths n.type))
    ∧ (rankedScores g).Perm (riskScores g)
    ∧ (rankedScores g).Pairwise (fun a b => b.2 ≤ a.2)
    ∧ (∀ q : Nat, (rankedScores g).filter (fun z => z.2 == q)
        = (riskScores g).filter (fun z => z.2 == q))
    ∧ (∀ n m : Node, n.type = "router" → m.type = "file" →
        (incomingOf g n.id).length = (incomingOf g m.id).length →
        (outgoingOf g n.id).length = (outgoingOf g m.id).length →
        0 < degree g n.id → scoreOf g m < scoreOf g n)
    ∧ (∀ (kx ky : Nat) (hx : kx < (rankedScores g).length)
          (hy : ky < (rankedScores g).length),
        ((rankedScores g).get ⟨kx, hx⟩).2 < ((rankedScores g).get ⟨ky, hy⟩).2 → ky < kx) := by
  refine ⟨?_, rfl, sortDesc_perm _, sortDesc_sorted _,
    fun q => sortDesc_stable _ q, ?_,
    fun kx ky hx hy h => sorted_get_lt (sortDesc_sorted _) kx ky hx hy h⟩
  · intro n
    rw [rawScore, connCount_eq_degree]
    push_cast
    rw [typeFactorTenths_eq]
    ring
  · intro n m hn hm hin hout hdeg
    unfold scoreOf
    rw [hn, hm]
    have hfr : typeFactorTenths "router" = 20 := by decide
    have hff : typeFactorTenths "file" = 10 := by decide
    rw [hfr, hff]
    have hraw : rawScore g m.id = rawScore g n.id := by
      rw [rawScore, rawScore, connCount_eq_degree, connCount_eq_degree]
      rw [degree, degree, hin, hout]
    rw [hraw]
    have hpos : 0 < rawScore g n.id := by
      rw [rawScore, connCount_eq_degree]
      omega
    omega

/-- Witness for C4: on a concrete snapshot, the router outscores the
same-degree file node and therefore occupies a strictly earlier rank. -/
theorem risk_ranking_stable_witness :
    scoreOf (loadGraph rankWSnap) (fileNode "f")
        < scoreOf (loadGraph rankWSnap) ⟨"r", "r", "router", "", 0, []⟩
    ∧ (rankedScores (loadGraph rankWSnap)).Pairwise (fun a b => b.2 ≤ a.2) := by
  constructor
  · exact (risk_ranking_stable (loadGraph rankWSnap)).2.2.2.2.2.1
      ⟨"r", "r", "router", "", 0, []⟩ (fileNode "f") rfl rfl (by decide) (by decide) (by decide)
  · exact (risk_ranking_stable (loadGraph rankWSnap)).2.2.2.1


/-! ### Round-trip lemmas -/

theorem addEdge_nodes (b : Builder) (s t ty : String) (m : List (String × String)) :
    (addEdge b s t ty m).nodes = b.nodes := by
  unfold addEdge
  split <;> rfl

theorem wfNodes_applyOp {b : Builder} (hb : WfNodes b) (op : Op) :
    WfNodes (applyOp b op) := by
  cases op with
  | addN i l ty f ln m =>
    simp only [applyOp]
    unfold addNode
    by_cases h : hasNode b i = true
    · rw [if_pos h]
      exact hb
    · rw [if_neg h]
      unfold WfNodes at *
      rw [List.map_append, List.nodup_append]
      refine ⟨hb, List.nodup_singleton _, ?_⟩
      intro x hx hx1
      have hxi : x = i := by simpa using hx1
      subst hxi
      obtain ⟨n, hn, hni⟩ := List.mem_map.mp hx
      exact h ((hasNodeId_iff b.nodes x).mpr ⟨n, hn, hni⟩)
  | addE s t ty m =>
    unfold WfNodes
    rw [applyOp, addEdge_nodes]
    exact hb
  | router i =>
    unfold WfNodes at *
    simp only [applyOp, markRouter]
    rw [List.map_map]
    have : (Node.id ∘ fun n => if n.id == i then { n with type := "router" } else n)
        = Node.id := by
      funext n
      simp only [Function.comp_apply]
      split <;> rfl
    rw [this]
    exact hb
  | relabel i l =>
    unfold WfNodes at *
    simp only [applyOp, setLabel]
    rw [List.map_map]
    have : (Node.id ∘ fun n => if n.id == i then { n with label := l } else n)
        = Node.id := by
      funext n
      simp only [Function.comp_apply]
      split <;> rfl
    rw [this]
    exact hb

theorem wfNodes_runOps (ops : List Op) : WfNodes (runOps ops) := by
  have h : ∀ b : Builder, WfNodes b → WfNodes (ops.foldl applyOp b) := by
    induction ops with
    | nil => exact fun b hb => hb
    | cons op ops ih => exact fun b hb => ih (applyOp b op) (wfNodes_applyOp hb op)
  exact h Builder.empty List.Pairwise.nil

theorem dedupAcc_of_nodup (l : List String) :
    ∀ seen : List String, l.Nodup → (∀ x ∈ l, x ∉ seen) → dedupAcc seen l = l := by
  induction l with
  | nil => intro seen _ _; rfl
  | cons i rest ih =>
    intro seen hnd hdisj
    rw [List.nodup_cons] at hnd
    unfold dedupAcc
    rw [if_neg (hdisj i (List.mem_cons_self i rest))]
    rw [ih (i :: seen) hnd.2]
    intro x hx
    rw [List.mem_cons]
    rintro (h | h)
    · subst h
      exact hnd.1 hx
    · exact hdisj x (List.mem_cons_of_mem i hx) h

theorem filterMap_lastWithId (ns : List Node) (h : (ns.map Node.id).Nodup) :
    (ns.map Node.id).filterMap (fun i => lastWithId ns i) = ns := by
  induction ns with
  | nil => rfl
  | cons n rest ih =>
    rw [List.map_cons, List.nodup_cons] at h
    have hhead : lastWithId (n :: rest) n.id = some n := by
      unfold lastWithId
      rw [List.filter_cons, if_pos (by simp)]
      have hnil : rest.filter (fun m => m.id == n.id) = [] := by
        refine List.filter_eq_nil_iff.mpr (fun m hm hb => ?_)
        have hmm : m.id = n.id := by simpa using hb
        exact h.1 (hmm ▸ List.mem_map.mpr ⟨m, hm, rfl⟩)
      rw [hnil]
      rfl
    have htail : (rest.map Node.id).filterMap (fun i => lastWithId (n :: rest) i)
        = (rest.map Node.id).filterMap (fun i => lastWithId rest i) := by
      refine List.filterMap_congr (fun i hi => ?_)
      unfold lastWithId
      rw [List.filter_cons, if_neg]
      intro hb
      have : n.id = i := by simpa using hb
      exact h.1 (this ▸ hi)
    rw [List.map_cons, List.filterMap_cons, hhead, htail, ih h.2]

theorem indexNodes_of_nodup (ns : List Node) (h : (ns.map Node.id).Nodup) :
    indexNodes ns = ns := by
  unfold indexNodes
  rw [dedupAcc_of_nodup (ns.map Node.id) [] h (fun x _ hx => (List.not_mem_nil x) hx)]
  exact filterMap_lastWithId ns h

theorem loadGraph_builder {b : Builder} (hw : WfNodes b) (hg : NoGhost b) :
    loadGraph (toSnapshot b) = ⟨b.nodes, b.edges, 0⟩ := by
  have hkept : keptEdges (toSnapshot b) = b.edges := by
    refine List.filter_eq_self.mpr (fun e he => ?_)
    obtain ⟨h1, h2⟩ := hg e he
    rw [toSnapshot] at *
    simp [h1, h2]
  unfold loadGraph
  rw [hkept]
  have hn : indexNodes (toSnapshot b).nodes = b.nodes := indexNodes_of_nodup b.nodes hw
  rw [hn]
  simp [toSnapshot]

/-- C9 (amended): for every builder state reachable by build-pass operations
in which every edge endpoint is a registered node, exporting the snapshot
and reloading it yields per-node degrees, risk tiers, and risk rankings
equal to those computed directly against the in-memory builder state. -/
theorem round_trip_lossless (ops : List Op) (hg : NoGhost (runOps ops)) :
    (∀ i : String, degree (loadGraph (toSnapshot (runOps ops))) i = directDegree (runOps ops) i)
    ∧ (∀ i : String,
        getRiskLevel (loadGraph (toSnapshot (runOps ops))) i = directRisk (runOps ops) i)
    ∧ rankedScores (loadGraph (toSnapshot (runOps ops))) = directRanking (runOps ops) := by
  have hL := loadGraph_builder (wfNodes_runOps ops) hg
  refine ⟨fun i => ?_, fun i => ?_, ?_⟩
  · rw [hL]
    rfl
  · rw [hL, risk_eq_spec]
    rfl
  · rw [hL]
    unfold rankedScores directRanking
    congr 1
    unfold riskScores directScores
    refine List.map_congr_left (fun n _ => ?_)
    rw [rawScore, connCount_eq_degree]
    rfl

/-- Witness for C9 on a concrete ghost-free build pass. -/
theorem round_trip_lossless_witness :
    degree (loadGraph (toSnapshot (runOps rtOps))) "a" = directDegree (runOps rtOps) "a"
    ∧ rankedScores (loadGraph (toSnapshot (runOps rtOps))) = directRanking (runOps rtOps) := by
  have h := round_trip_lossless rtOps (by unfold NoGhost; decide)
  exact ⟨h.1 "a", h.2.2⟩

/-- Counterexample to C9 as stated: a builder can hold an edge to an
unregistered id; reloading filters it as a ghost edge, so the reloaded
degree of `a` is 0 while the direct in-memory degree is 1. -/
theorem round_trip_ghost_breaks :
    directDegree (runOps rtCxOps) "a" = 1
    ∧ degree (loadGraph (toSnapshot (runOps rtCxOps))) "a" = 0 := by
  decide

/-- Counterexample to C4 as stated: the file node `a` and router `r` of
`cx4Snap` have identical degree, yet they tie on score (40 tenths each) and
the stable sort keeps the earlier-inserted file node strictly ahead of the
router. -/
theorem risk_ranking_router_tie :
    nodeType (loadGraph cx4Snap) "a" = "file"
    ∧ nodeType (loadGraph cx4Snap) "r" = "router"
    ∧ degree (loadGraph cx4Snap) "a" = degree (loadGraph cx4Snap) "r"
    ∧ rankedScores (loadGraph cx4Snap) = [("a", 40), ("r", 40), ("y", 40), ("x", 20)] := by
  decide

/-! ### BFS frontier theory

Shared lemmas about `discoverIds`, `expandLevel` and `frontierSeq`, generic
in the neighbour function `nb`; they serve both the impact BFS (`predsOf`)
and the path BFS (`neighborsOf`). -/

theorem discoverIds_fst (ps vis : List String) :
    (discoverIds ps vis).1 = vis ++ (discoverIds ps vis).2 := by
  induction ps generalizing vis with
  | nil => simp [discoverIds]
  | cons p ps ih =>
    unfold discoverIds
    by_cases h : p ∈ vis
    · rw [if_pos h]
      exact ih vis
    · rw [if_neg h]
      simp only []
      rw [ih (vis ++ [p])]
      simp

theorem mem_discoverIds_snd {x : String} (ps vis : List String) :
    x ∈ (discoverIds ps vis).2 ↔ x ∈ ps ∧ x ∉ vis := by
  induction ps generalizing vis with
  | nil => simp [discoverIds]
  | cons p ps ih =>
    unfold discoverIds
    by_cases h : p ∈ vis
    · rw [if_pos h]
      rw [ih vis]
      constructor
      · rintro ⟨h1, h2⟩
        exact ⟨List.mem_cons_of_mem p h1, h2⟩
      · rintro ⟨h1, h2⟩
        rcases List.mem_cons.mp h1 with h1 | h1
        · subst h1; exact absurd h h2
        · exact ⟨h1, h2⟩
    · rw [if_neg h]
      simp only [List.mem_cons]
      rw [ih (vis ++ [p])]
      constructor
      · rintro (h1 | ⟨h1, h2⟩)
        · subst h1; exact ⟨Or.inl rfl, h⟩
        · refine ⟨Or.inr h1, fun hx => h2 (List.mem_append.mpr (Or.inl hx))⟩
      · rintro ⟨h1 | h1, h2⟩
        · exact Or.inl h1
        · by_cases hxp : x = p
          · exact Or.inl hxp
          · refine Or.inr ⟨h1, fun hx => ?_⟩
            rcases List.mem_append.mp hx with hx | hx
            · exact h2 hx
            · exact hxp (List.mem_singleton.mp hx)

theorem discoverIds_snd_nodup (ps vis : List String) : (discoverIds ps vis).2.Nodup := by
  induction ps generalizing vis with
  | nil => exact List.Pairwise.nil
  | cons p ps ih =>
    unfold discoverIds
    by_cases h : p ∈ vis
    · rw [if_pos h]
      exact ih vis
    · rw [if_neg h]
      simp only []
      rw [List.nodup_cons]
      refine ⟨fun hp => ?_, ih (vis ++ [p])⟩
      have := (mem_discoverIds_snd ps (vis ++ [p])).mp hp
      exact this.2 (List.mem_append.mpr (Or.inr (List.mem_singleton.mpr rfl)))

theorem expandLevel_fst (nb : String → List String) (f vis : List String) :
    (expandLevel nb f vis).1 = vis ++ (expandLevel nb f vis).2 := by
  induction f generalizing vis with
  | nil => simp [expandLevel]
  | cons x xs ih =>
    unfold expandLevel
    simp only []
    rw [ih ((discoverIds (nb x) vis).1), discoverIds_fst]
    simp

theorem mem_expandLevel_snd {z : String} (nb : String → List String) (f vis : List String) :
    z ∈ (expandLevel nb f vis).2 ↔ z ∉ vis ∧ ∃ y ∈ f, z ∈ nb y := by
  induction f generalizing vis with
  | nil => simp [expandLevel]
  | cons x xs ih =>
    unfold expandLevel
    simp only [List.mem_append]
    constructor
    · rintro (h | h)
      · obtain ⟨h1, h2⟩ := (mem_discoverIds_snd _ _).mp h
        exact ⟨h2, x, List.mem_cons_self x xs, h1⟩
      · obtain ⟨h1, y, hy, hz⟩ := (ih _).mp h
        rw [discoverIds_fst, List.mem_append] at h1
        push_neg at h1
        exact ⟨h1.1, y, List.mem_cons_of_mem x hy, hz⟩
    · rintro ⟨h1, y, hy, hz⟩
      by_cases hd : z ∈ (discoverIds (nb x) vis).2
      · exact Or.inl hd
      · right
        rcases List.mem_cons.mp hy with hyx | hyx
        · subst hyx
          exact absurd ((mem_discoverIds_snd _ _).mpr ⟨hz, h1⟩) hd
        · refine (ih _).mpr ⟨?_, y, hyx, hz⟩
          rw [discoverIds_fst, List.mem_append]
          push_neg
          exact ⟨h1, hd⟩

theorem expandLevel_snd_nodup (nb : String → List String) (f vis : List String) :
    (expandLevel nb f vis).2.Nodup := by
  induction f generalizing vis with
  | nil => exact List.Pairwise.nil
  | cons x xs ih =>
    unfold expandLevel
    simp only []
    rw [List.nodup_append]
    refine ⟨discoverIds_snd_nodup _ _, ih _, ?_⟩
    intro z hz1 hz2
    have h2 := (mem_expandLevel_snd nb xs _).mp hz2
    rw [discoverIds_fst, List.mem_append] at h2
    push_neg at h2
    exact h2.1.2 hz1

theorem mem_dedupAcc {x : String} (l : List String) :
    ∀ seen : List String, x ∈ dedupAcc seen l ↔ x ∈ l ∧ x ∉ seen := by
  induction l with
  | nil => intro seen; simp [dedupAcc]
  | cons i rest ih =>
    intro seen
    unfold dedupAcc
    by_cases h : i ∈ seen
    · rw [if_pos h, ih seen]
      constructor
      · rintro ⟨h1, h2⟩
        exact ⟨List.mem_cons_of_mem i h1, h2⟩
      · rintro ⟨h1, h2⟩
        rcases List.mem_cons.mp h1 with h1 | h1
        · subst h1; exact absurd h h2
        · exact ⟨h1, h2⟩
    · rw [if_neg h]
      simp only [List.mem_cons]
      rw [ih (i :: seen)]
      constructor
      · rintro (h1 | ⟨h1, h2⟩)
        · subst h1; exact ⟨Or.inl rfl, h⟩
        · simp only [List.mem_cons] at h2
          push_neg at h2
          exact ⟨Or.inr h1, h2.2⟩
      · rintro ⟨h1 | h1, h2⟩
        · exact Or.inl h1
        · by_cases hxi : x = i
          · exact Or.inl hxi
          · refine Or.inr ⟨h1, ?_⟩
            simp only [List.mem_cons]
            push_neg
            exact ⟨hxi, h2⟩

theorem dedupAcc_nodup (l : List String) :
    ∀ seen : List String, (dedupAcc seen l).Nodup := by
  induction l with
  | nil => intro seen; exact List.Pairwise.nil
  | cons i rest ih =>
    intro seen
    unfold dedupAcc
    by_cases h : i ∈ seen
    · rw [if_pos h]
      exact ih seen
    · rw [if_neg h]
      rw [List.nodup_cons]
      refine ⟨fun hmem => ?_, ih (i :: seen)⟩
      exact ((mem_dedupAcc rest (i :: seen)).mp hmem).2 (List.mem_cons_self i seen)

theorem universeIds_nodup (g : GraphQuery) : (universeIds g).Nodup :=
  dedupAcc_nodup _ []

theorem predsOf_sub_universe (g : GraphQuery) {y x : String} (h : x ∈ predsOf g y) :
    x ∈ universeIds g := by
  obtain ⟨e, he, hx⟩ := List.mem_map.mp h
  have hmem : e ∈ g.edges := (List.mem_filter.mp he).1
  refine (mem_dedupAcc _ []).mpr ⟨?_, List.not_mem_nil x⟩
  rw [List.mem_append, List.mem_append]
  exact Or.inl (Or.inr (List.mem_map.mpr ⟨e, hmem, hx⟩))

theorem neighborsOf_sub_universe (g : GraphQuery) {y x : String} (h : x ∈ neighborsOf g y) :
    x ∈ universeIds g := by
  refine (mem_dedupAcc _ []).mpr ⟨?_, List.not_mem_nil x⟩
  rw [List.mem_append, List.mem_append]
  rcases List.mem_append.mp h with h1 | h1
  · obtain ⟨e, he, hx⟩ := List.mem_map.mp h1
    exact Or.inr (List.mem_map.mpr ⟨e, (List.mem_filter.mp he).1, hx⟩)
  · obtain ⟨e, he, hx⟩ := List.mem_map.mp h1
    exact Or.inl (Or.inr (List.mem_map.mpr ⟨e, (List.mem_filter.mp he).1, hx⟩))

theorem filter_notmem_snoc (U : List String) (hU : U.Nodup) (vis : List String)
    (d : String) (hdU : d ∈ U) (hdv : d ∉ vis) :
    (U.filter (fun x => x ∉ (vis ++ [d]))).length + 1
      = (U.filter (fun x => x ∉ vis)).length := by
  induction U with
  | nil => cases hdU
  | cons u U ih =>
    rw [List.nodup_cons] at hU
    by_cases hud : u = d
    · subst hud
      have h1 : (u ∈ vis ++ [u]) := List.mem_append.mpr (Or.inr (List.mem_singleton.mpr rfl))
      rw [List.filter_cons, List.filter_cons]
      rw [if_neg (by simp [h1]), if_pos (by rw [decide_eq_true_eq]; exact hdv)]
      have heq : U.filter (fun x => decide (x ∉ (vis ++ [u])))
          = U.filter (fun x => decide (x ∉ vis)) := by
        refine List.filter_congr (fun x hx => ?_)
        have hxu : x ≠ u := fun hc => hU.1 (hc ▸ hx)
        simp only [decide_eq_decide, List.mem_append, List.mem_singleton]
        constructor
        · intro h hc
          exact h (Or.inl hc)
        · intro h
          rintro (hc | hc)
          · exact h hc
          · exact hxu hc
      rw [heq]
      simp
    · have hdU2 : d ∈ U := by
        rcases List.mem_cons.mp hdU with h | h
        · exact absurd h.symm hud
        · exact h
      rw [List.filter_cons, List.filter_cons]
      by_cases hu : u ∈ vis
      · have hu2 : u ∈ vis ++ [d] := List.mem_append.mpr (Or.inl hu)
        rw [if_neg (by rw [decide_eq_true_eq]; exact fun hc => hc hu2),
          if_neg (by rw [decide_eq_true_eq]; exact fun hc => hc hu)]
        exact ih hU.2 hdU2
      · have hu2 : u ∉ vis ++ [d] := by
          rw [List.mem_append, List.mem_singleton]
          push_neg
          exact ⟨hu, hud⟩
        rw [if_pos (by rw [decide_eq_true_eq]; exact hu2),
          if_pos (by rw [decide_eq_true_eq]; exact hu)]
        have := ih hU.2 hdU2
        simp only [List.length_cons]
        omega

theorem filter_notmem_append (U : List String) (hU : U.Nodup) :
    ∀ (ds vis : List String), ds.Nodup → (∀ x ∈ ds, x ∉ vis) → (∀ x ∈ ds, x ∈ U) →
      (U.filter (fun x => x ∉ (vis ++ ds))).length + ds.length
        = (U.filter (fun x => x ∉ vis)).length := by
  intro ds
  induction ds with
  | nil => intro vis _ _ _; simp
  | cons d ds ih =>
    intro vis hnd hfresh hsub
    rw [List.nodup_cons] at hnd
    have hstep : vis ++ d :: ds = (vis ++ [d]) ++ ds := by simp
    rw [hstep]
    have h1 := ih (vis ++ [d]) hnd.2
      (fun x hx => by
        rw [List.mem_append, List.mem_singleton]
        push_neg
        exact ⟨hfresh x (List.mem_cons_of_mem d hx), fun hc => hnd.1 (hc ▸ hx)⟩)
      (fun x hx => hsub x (List.mem_cons_of_mem d hx))
    have h2 := filter_notmem_snoc U hU vis d (hsub d (List.mem_cons_self d ds))
      (hfresh d (List.mem_cons_self d ds))
    simp only [List.length_cons]
    omega

theorem visitedAt_zero (nb : String → List String) (start : String) :
    visitedAt nb start 0 = [start] := rfl

theorem frontierAt_zero (nb : String → List String) (start : String) :
    frontierAt nb start 0 = [start] := rfl

theorem frontierAt_succ (nb : String → List String) (start : String) (n : Nat) :
    frontierAt nb start (n + 1)
      = (expandLevel nb (frontierAt nb start n) (visitedAt nb start n)).2 := rfl

theorem visitedAt_succ (nb : String → List String) (start : String) (n : Nat) :
    visitedAt nb start (n + 1)
      = visitedAt nb start n ++ frontierAt nb start (n + 1) := by
  have h : visitedAt nb start (n + 1)
      = (expandLevel nb (frontierAt nb start n) (visitedAt nb start n)).1 := rfl
  rw [h, expandLevel_fst]
  rfl

theorem frontier_sub_visited (nb : String → List String) (start : String) (n : Nat) :
    ∀ x ∈ frontierAt nb start n, x ∈ visitedAt nb start n := by
  cases n with
  | zero => intro x hx; exact hx
  | succ n =>
    intro x hx
    rw [visitedAt_succ]
    exact List.mem_append.mpr (Or.inr hx)

theorem visited_sub_succ (nb : String → List String) (start : String) (n : Nat) :
    ∀ x ∈ visitedAt nb start n, x ∈ visitedAt nb start (n + 1) := by
  intro x hx
  rw [visitedAt_succ]
  exact List.mem_append.mpr (Or.inl hx)

theorem visited_mono (nb : String → List String) (start : String) {m n : Nat} (h : m ≤ n) :
    ∀ x ∈ visitedAt nb start m, x ∈ visitedAt nb start n := by
  induction n with
  | zero =>
    intro x hx
    rw [Nat.le_zero.mp h] at hx
    exact hx
  | succ n ih =>
    rcases Nat.lt_or_ge m (n + 1) with hm | hm
    · intro x hx
      exact visited_sub_succ nb start n x (ih (Nat.lt_succ_iff.mp hm) x hx)
    · have : m = n + 1 := le_antisymm h hm
      subst this
      exact fun x hx => hx

theorem frontier_succ_not_visited (nb : String → List String) (start : String) (n : Nat)
    {x : String} (hx : x ∈ frontierAt nb start (n + 1)) : x ∉ visitedAt nb start n := by
  rw [frontierAt_succ] at hx
  exact ((mem_expandLevel_snd nb _ _).mp hx).1

theorem processed_closed (nb : String → List String) (start : String) (n : Nat) :
    ∀ y ∈ visitedAt nb start n,
      y ∈ frontierAt nb start n ∨ ∀ x ∈ nb y, x ∈ visitedAt nb start n := by
  induction n with
  | zero => intro y hy; exact Or.inl hy
  | succ n ih =>
    intro y hy
    rw [visitedAt_succ] at hy
    rcases List.mem_append.mp hy with hy | hy
    · right
      rcases ih y hy with hf | hcl
      · intro x hx
        by_cases hv : x ∈ visitedAt nb start n
        · exact visited_sub_succ nb start n x hv
        · rw [visitedAt_succ]
          refine List.mem_append.mpr (Or.inr ?_)
          rw [frontierAt_succ]
          exact (mem_expandLevel_snd nb _ _).mpr ⟨hv, y, hf, hx⟩
      · exact fun x hx => visited_sub_succ nb start n x (hcl x hx)
    · exact Or.inl hy

theorem nb_visited_sub (nb : String → List String) (start : String) (n : Nat)
    {y x : String} (hy : y ∈ visitedAt nb start n) (hx : x ∈ nb y) :
    x ∈ visitedAt nb start (n + 1) := by
  rcases processed_closed nb start n y hy with hf | hcl
  · by_cases hv : x ∈ visitedAt nb start n
    · exact visited_sub_succ nb start n x hv
    · rw [visitedAt_succ]
      refine List.mem_append.mpr (Or.inr ?_)
      rw [frontierAt_succ]
      exact (mem_expandLevel_snd nb _ _).mpr ⟨hv, y, hf, hx⟩
  · exact visited_sub_succ nb start n x (hcl x hx)

theorem nbPath_visited (nb : String → List String) (start : String) {x : String} {d : Nat}
    (h : NbPath nb start x d) : x ∈ visitedAt nb start d := by
  induction h with
  | refl => exact List.mem_singleton.mpr rfl
  | step hp hx ih => exact nb_visited_sub nb start _ ih hx

theorem visited_to_path (nb : String → List String) (start : String) :
    ∀ n : Nat, ∀ x ∈ visitedAt nb start n, ∃ d ≤ n, NbPath nb start x d := by
  intro n
  induction n with
  | zero =>
    intro x hx
    have : x = start := List.mem_singleton.mp hx
    subst this
    exact ⟨0, Nat.le_refl 0, NbPath.refl⟩
  | succ n ih =>
    intro x hx
    rw [visitedAt_succ] at hx
    rcases List.mem_append.mp hx with hx | hx
    · obtain ⟨d, hd, hp⟩ := ih x hx
      exact ⟨d, Nat.le_succ_of_le hd, hp⟩
    · rw [frontierAt_succ] at hx
      obtain ⟨-, y, hy, hxy⟩ := (mem_expandLevel_snd nb _ _).mp hx
      obtain ⟨d, hd, hp⟩ := ih y (frontier_sub_visited nb start n y hy)
      exact ⟨d + 1, Nat.succ_le_succ hd, NbPath.step hp hxy⟩

theorem mem_visited_iff (nb : String → List String) (start : String) (n : Nat) (x : String) :
    x ∈ visitedAt nb start n ↔ ∃ d ≤ n, NbPath nb start x d := by
  constructor
  · exact visited_to_path nb start n x
  · rintro ⟨d, hd, hp⟩
    exact visited_mono nb start hd x (nbPath_visited nb start hp)

theorem frontier_iff_min_dist (nb : String → List String) (start : String) (n : Nat)
    (x : String) :
    x ∈ frontierAt nb start (n + 1) ↔
      (NbPath nb start x (n + 1) ∧ ∀ d < n + 1, ¬ NbPath nb start x d) := by
  constructor
  · intro hx
    have hnv := frontier_succ_not_visited nb start n hx
    have hv := frontier_sub_visited nb start (n + 1) x hx
    obtain ⟨d, hd, hp⟩ := (mem_visited_iff nb start (n + 1) x).mp hv
    have hmin : ∀ d' < n + 1, ¬ NbPath nb start x d' := by
      intro d' hd' hp'
      exact hnv ((mem_visited_iff nb start n x).mpr ⟨d', Nat.lt_succ_iff.mp hd', hp'⟩)
    have hdn : d = n + 1 := by
      rcases Nat.lt_or_ge d (n + 1) with h | h
      · exact absurd hp (hmin d h)
      · exact le_antisymm hd h
    subst hdn
    exact ⟨hp, hmin⟩
  · rintro ⟨hp, hmin⟩
    have hv : x ∈ visitedAt nb start (n + 1) := nbPath_visited nb start hp
    rw [visitedAt_succ] at hv
    rcases List.mem_append.mp hv with hv | hv
    · obtain ⟨d, hd, hp'⟩ := (mem_visited_iff nb start n x).mp hv
      exact absurd hp' (hmin d (Nat.lt_succ_of_le hd))
    · exact hv

theorem frontier_nodup (nb : String → List String) (start : String) (n : Nat) :
    (frontierAt nb start n).Nodup := by
  cases n with
  | zero => exact List.nodup_singleton _
  | succ n =>
    rw [frontierAt_succ]
    exact expandLevel_snd_nodup nb _ _

theorem expandLevel_sub_universe {g : GraphQuery} {nb : String → List String}
    (hnb : ∀ y x, x ∈ nb y → x ∈ universeIds g) (f vis : List String) :
    ∀ x ∈ (expandLevel nb f vis).2, x ∈ universeIds g := by
  intro x hx
  obtain ⟨-, y, -, hxy⟩ := (mem_expandLevel_snd nb f vis).mp hx
  exact hnb y x hxy

theorem expandLevel_unvis {g : GraphQuery} {nb : String → List String}
    (hnb : ∀ y x, x ∈ nb y → x ∈ universeIds g) (f vis : List String) :
    unvis g (expandLevel nb f vis).1 + (expandLevel nb f vis).2.length = unvis g vis := by
  unfold unvis
  rw [expandLevel_fst]
  refine filter_notmem_append (universeIds g) (universeIds_nodup g)
    (expandLevel nb f vis).2 vis (expandLevel_snd_nodup nb f vis)
    (fun x hx => ((mem_expandLevel_snd nb f vis).mp hx).1)
    (expandLevel_sub_universe hnb f vis)

theorem discoverIds_unvis {g : GraphQuery} (ps vis : List String)
    (hps : ∀ x ∈ ps, x ∈ universeIds g) :
    unvis g (discoverIds ps vis).1 + (discoverIds ps vis).2.length = unvis g vis := by
  unfold unvis
  rw [discoverIds_fst]
  refine filter_notmem_append (universeIds g) (universeIds_nodup g)
    (discoverIds ps vis).2 vis (discoverIds_snd_nodup ps vis)
    (fun x hx => ((mem_discoverIds_snd ps vis).mp hx).2)
    (fun x hx => hps x ((mem_discoverIds_snd ps vis).mp hx).1)

/-! ### Impact BFS: queue loop equals level-synchronous reference -/

theorem runLevels_nil (nb : String → List String) :
    ∀ (c k : Nat) (vis : List String) (aff : List (String × Nat)),
      runLevels nb c k [] vis aff = aff := by
  intro c
  induction c with
  | zero => intro k vis aff; rfl
  | succ c ih =>
    intro k vis aff
    show runLevels nb c (k + 1) (expandLevel nb [] vis).2 (expandLevel nb [] vis).1
        (aff ++ ((expandLevel nb [] vis).2).map (fun x => (x, k + 1))) = aff
    have he : expandLevel nb [] vis = (vis, []) := rfl
    rw [he]
    simpa using ih (k + 1) vis aff

theorem impactLoop_drain (g : GraphQuery) :
    ∀ (l : List String) (fuel : Nat) (vis : List String) (aff : List (String × Nat)),
      l.length ≤ fuel →
      impactLoop g fuel (l.map (fun x => (x, 4))) vis aff = aff := by
  intro l
  induction l with
  | nil =>
    intro fuel vis aff _
    cases fuel <;> rfl
  | cons x xs ih =>
    intro fuel vis aff hf
    match fuel, hf with
    | f + 1, hf =>
      show impactLoop g (f + 1) ((x, 4) :: xs.map (fun x => (x, 4))) vis aff = aff
      simp only [impactLoop]
      rw [if_pos (by omega)]
      refine ih f vis aff ?_
      simp only [List.length_cons] at hf
      omega

theorem impact_G (g : GraphQuery) :
    ∀ c : Nat, c ≤ 3 → ∀ fuel : Nat,
      ∀ (eK d1 vis : List String) (aff : List (String × Nat)),
      eK.length + d1.length + 2 * unvis g vis ≤ fuel →
      impactLoop g fuel
          (eK.map (fun x => (x, 3 - c)) ++ d1.map (fun x => (x, 4 - c))) vis aff
        = runLevels (predsOf g) c (4 - c)
            (d1 ++ (expandLevel (predsOf g) eK vis).2)
            (expandLevel (predsOf g) eK vis).1
            (aff ++ ((expandLevel (predsOf g) eK vis).2).map (fun x => (x, 4 - c))) := by
  intro c
  induction c with
  | zero =>
    intro _ fuel
    induction fuel with
    | zero =>
      intro eK d1 vis aff hf
      have he : eK = [] := List.eq_nil_of_length_eq_zero (by omega)
      have hd : d1 = [] := List.eq_nil_of_length_eq_zero (by omega)
      subst he; subst hd
      have hE : expandLevel (predsOf g) [] vis = (vis, []) := rfl
      rw [hE]
      simp [impactLoop, runLevels]
    | succ f ihf =>
      intro eK d1 vis aff hf
      cases eK with
      | nil =>
        have hE : expandLevel (predsOf g) [] vis = (vis, []) := rfl
        rw [hE]
        simp only [List.map_nil, List.nil_append, List.append_nil]
        rw [impactLoop_drain g d1 (f + 1) vis aff
          (by simp only [List.length_nil] at hf; omega)]
        rfl
      | cons p rest =>
        have hu := discoverIds_unvis (g := g) (predsOf g p) vis
          (fun x hx => predsOf_sub_universe g hx)
        rw [List.map_cons, List.cons_append]
        simp only [impactLoop]
        rw [if_neg (by omega)]
        have hdep : 3 - 0 + 1 = 4 - 0 := rfl
        rw [hdep, List.append_assoc, ← List.map_append]
        rw [ihf rest (d1 ++ (discoverIds (predsOf g p) vis).2)
          (discoverIds (predsOf g p) vis).1
          (aff ++ ((discoverIds (predsOf g p) vis).2).map (fun x => (x, 4 - 0)))
          (by
            simp only [List.length_cons, List.length_append] at hf ⊢
            omega)]
        have hEc : expandLevel (predsOf g) (p :: rest) vis
            = ((expandLevel (predsOf g) rest (discoverIds (predsOf g p) vis).1).1,
               (discoverIds (predsOf g p) vis).2
                 ++ (expandLevel (predsOf g) rest (discoverIds (predsOf g p) vis).1).2) := rfl
        rw [hEc]
        simp [List.append_assoc, List.map_append]
  | succ c' ihc =>
    intro hc fuel
    induction fuel with
    | zero =>
      intro eK d1 vis aff hf
      have he : eK = [] := List.eq_nil_of_length_eq_zero (by omega)
      have hd : d1 = [] := List.eq_nil_of_length_eq_zero (by omega)
      subst he; subst hd
      have hE : expandLevel (predsOf g) [] vis = (vis, []) := rfl
      rw [hE]
      simp [impactLoop, runLevels_nil]
    | succ f ihf =>
      intro eK d1 vis aff hf
      cases eK with
      | nil =>
        have hnum : (4 : Nat) - (c' + 1) = 3 - c' := by omega
        have hnum2 : (3 : Nat) - c' + 1 = 4 - c' := by omega
        have h2 := ihc (by omega) (f + 1) d1 [] vis aff
          (by simp only [List.length_nil] at hf ⊢; omega)
        simp only [List.map_nil, List.nil_append, List.append_nil] at h2
        have hE : expandLevel (predsOf g) [] vis = (vis, []) := rfl
        rw [hE]
        simp only [List.map_nil, List.nil_append, List.append_nil]
        rw [hnum]
        show impactLoop g (f + 1) (d1.map (fun x => (x, 3 - c'))) vis aff
          = runLevels (predsOf g) c' (3 - c' + 1) (expandLevel (predsOf g) d1 vis).2
              (expandLevel (predsOf g) d1 vis).1
              (aff ++ ((expandLevel (predsOf g) d1 vis).2).map (fun x => (x, 3 - c' + 1)))
        rw [hnum2]
        exact h2
      | cons p rest =>
        have hu := discoverIds_unvis (g := g) (predsOf g p) vis
          (fun x hx => predsOf_sub_universe g hx)
        rw [List.map_cons, List.cons_append]
        simp only [impactLoop]
        rw [if_neg (by omega)]
        have hdep : 3 - (c' + 1) + 1 = 4 - (c' + 1) := by omega
        rw [hdep, List.append_assoc, ← List.map_append]
        rw [ihf rest (d1 ++ (discoverIds (predsOf g p) vis).2)
          (discoverIds (predsOf g p) vis).1
          (aff ++ ((discoverIds (predsOf g p) vis).2).map (fun x => (x, 4 - (c' + 1))))
          (by
            simp only [List.length_cons, List.length_append] at hf ⊢
            omega)]
        have hEc : expandLevel (predsOf g) (p :: rest) vis
            = ((expandLevel (predsOf g) rest (discoverIds (predsOf g p) vis).1).1,
               (discoverIds (predsOf g p) vis).2
                 ++ (expandLevel (predsOf g) rest (discoverIds (predsOf g p) vis).1).2) := rfl
        rw [hEc]
        simp [List.append_assoc, List.map_append]

theorem cmdImpact_eq_blocks (g : GraphQuery) (start : String) :
    cmdImpact g start
      = levelBlock (predsOf g) start 1
          ++ (levelBlock (predsOf g) start 2
            ++ (levelBlock (predsOf g) start 3 ++ levelBlock (predsOf g) start 4)) := by
  have hG := impact_G g 3 (le_refl 3) (2 * (universeIds g).length + 2)
    [start] [] [start] []
    (by
      have hle : unvis g [start] ≤ (universeIds g).length := List.length_filter_le _ _
      simp only [List.length_cons, List.length_nil]
      omega)
  have hq : ([start].map (fun x => (x, 3 - 3)) ++ ([] : List String).map (fun x => (x, 4 - 3)))
      = [(start, 0)] := by simp
  rw [hq] at hG
  unfold cmdImpact
  rw [hG]
  have h1 : ([] : List String) ++ (expandLevel (predsOf g) [start] [start]).2
      = frontierAt (predsOf g) start 1 := by
    rw [List.nil_append]
    rfl
  have h2 : (expandLevel (predsOf g) [start] [start]).1 = visitedAt (predsOf g) start 1 := rfl
  rw [h1, h2]
  show runLevels (predsOf g) 3 1 (frontierAt (predsOf g) start 1)
      (visitedAt (predsOf g) start 1)
      (([] : List (String × Nat))
        ++ (frontierAt (predsOf g) start 1).map (fun x => (x, 1))) = _
  rw [List.nil_append]
  show runLevels (predsOf g) 2 2 (frontierAt (predsOf g) start 2)
      (visitedAt (predsOf g) start 2)
      (levelBlock (predsOf g) start 1 ++ (frontierAt (predsOf g) start 2).map (fun x => (x, 2)))
      = _
  show runLevels (predsOf g) 1 3 (frontierAt (predsOf g) start 3)
      (visitedAt (predsOf g) start 3)
      ((levelBlock (predsOf g) start 1 ++ levelBlock (predsOf g) start 2)
        ++ (frontierAt (predsOf g) start 3).map (fun x => (x, 3)))
      = _
  show runLevels (predsOf g) 0 4 (frontierAt (predsOf g) start 4)
      (visitedAt (predsOf g) start 4)
      (((levelBlock (predsOf g) start 1 ++ levelBlock (predsOf g) start 2)
          ++ levelBlock (predsOf g) start 3)
        ++ (frontierAt (predsOf g) start 4).map (fun x => (x, 4)))
      = _
  show ((levelBlock (predsOf g) start 1 ++ levelBlock (predsOf g) start 2)
          ++ levelBlock (predsOf g) start 3) ++ levelBlock (predsOf g) start 4 = _
  simp [List.append_assoc]

theorem lookup_map_none {id : String} {F : List String} {d : Nat} (h : id ∉ F) :
    (F.map (fun x => (x, d))).lookup id = none := by
  induction F with
  | nil => rfl
  | cons x xs ih =>
    rw [List.map_cons, List.lookup_cons]
    have hne : (id == x) = false := by
      refine beq_eq_false_iff_ne.mpr (fun hc => ?_)
      exact h (hc ▸ List.mem_cons_self x xs)
    rw [hne]
    exact ih (fun hc => h (List.mem_cons_of_mem x hc))

theorem lookup_map_mem {id : String} {F : List String} {d : Nat} (h : id ∈ F) :
    (F.map (fun x => (x, d))).lookup id = some d := by
  induction F with
  | nil => cases h
  | cons x xs ih =>
    rw [List.map_cons, List.lookup_cons]
    by_cases hx : id = x
    · rw [beq_iff_eq.mpr hx]
    · rw [beq_eq_false_iff_ne.mpr hx]
      rcases List.mem_cons.mp h with h | h
      · exact absurd h hx
      · exact ih h

theorem lookup_append_left {α β : Type} [BEq α] {l1 l2 : List (α × β)} {a : α} {v : β}
    (h : l1.lookup a = some v) : (l1 ++ l2).lookup a = some v := by
  induction l1 with
  | nil => cases h
  | cons kv l1 ih =>
    rw [List.cons_append, List.lookup_cons]
    rw [List.lookup_cons] at h
    cases hk : a == kv.1 <;> rw [hk] at h <;> simp only []
    · exact ih h
    · exact h

theorem lookup_append_right {α β : Type} [BEq α] {l1 l2 : List (α × β)} {a : α}
    (h : l1.lookup a = none) : (l1 ++ l2).lookup a = l2.lookup a := by
  induction l1 with
  | nil => rfl
  | cons kv l1 ih =>
    rw [List.cons_append, List.lookup_cons]
    rw [List.lookup_cons] at h
    cases hk : a == kv.1 <;> rw [hk] at h <;> simp only []
    · exact ih h
    · cases h

theorem frontier_lt_disjoint (nb : String → List String) (start : String) {j k : Nat}
    (hjk : j < k) {id : String} (hk : id ∈ frontierAt nb start k) :
    id ∉ frontierAt nb start j := by
  intro hj
  match k, hjk with
  | m + 1, hjk =>
    exact frontier_succ_not_visited nb start m hk
      (visited_mono nb start (Nat.lt_succ_iff.mp hjk) id
        (frontier_sub_visited nb start j id hj))

theorem cmdImpact_lookup_iff (g : GraphQuery) (start id : String) (d : Nat) :
    (cmdImpact g start).lookup id = some d ↔
      (1 ≤ d ∧ d ≤ 4 ∧ id ∈ frontierAt (predsOf g) start d) := by
  rw [cmdImpact_eq_blocks]
  have hdet : ∀ k : Nat, 1 ≤ k → k ≤ 4 → id ∈ frontierAt (predsOf g) start k →
      (some k = some d ↔ (1 ≤ d ∧ d ≤ 4 ∧ id ∈ frontierAt (predsOf g) start d)) := by
    intro k hk1 hk4 hmem
    constructor
    · intro h
      injection h with h
      subst h
      exact ⟨hk1, hk4, hmem⟩
    · rintro ⟨hd1, hd4, hdmem⟩
      rcases Nat.lt_trichotomy k d with h | h | h
      · exact absurd hmem (frontier_lt_disjoint (predsOf g) start h hdmem)
      · rw [h]
      · exact absurd hdmem (frontier_lt_disjoint (predsOf g) start h hmem)
  unfold levelBlock
  by_cases h1 : id ∈ frontierAt (predsOf g) start 1
  · rw [lookup_append_left (lookup_map_mem h1)]
    exact hdet 1 (by omega) (by omega) h1
  · rw [lookup_append_right (lookup_map_none h1)]
    by_cases h2 : id ∈ frontierAt (predsOf g) start 2
    · rw [lookup_append_left (lookup_map_mem h2)]
      exact hdet 2 (by omega) (by omega) h2
    · rw [lookup_append_right (lookup_map_none h2)]
      by_cases h3 : id ∈ frontierAt (predsOf g) start 3
      · rw [lookup_append_left (lookup_map_mem h3)]
        exact hdet 3 (by omega) (by omega) h3
      · rw [lookup_append_right (lookup_map_none h3)]
        by_cases h4 : id ∈ frontierAt (predsOf g) start 4
        · rw [lookup_map_mem h4]
          exact hdet 4 (by omega) (by omega) h4
        · rw [lookup_map_none h4]
          constructor
          · intro h
            cases h
          · rintro ⟨hd1, hd4, hdmem⟩
            interval_cases d
            · exact absurd hdmem h1
            · exact absurd hdmem h2
            · exact absurd hdmem h3
            · exact absurd hdmem h4

/-- C2: the impact traversal is a reverse BFS over kept incoming edges with
`maxDepth = 3` whose depth check runs after dequeue, so the `affected` map
holds exactly the nodes whose minimal reverse-edge distance `d` from the
start satisfies `1 ≤ d ≤ 4`, each recorded at that minimal distance; and one
reverse step means following a kept incoming edge from target to source. -/
theorem impact_bfs_depth_characterization (s : Snapshot) (start id : String) (d : Nat) :
    ((cmdImpact (loadGraph s) start).lookup id = some d ↔
      (1 ≤ d ∧ d ≤ 4 ∧ NbPath (predsOf (loadGraph s)) start id d
        ∧ ∀ d' < d, ¬ NbPath (predsOf (loadGraph s)) start id d'))
    ∧ (∀ x y : String, y ∈ predsOf (loadGraph s) x ↔
        ∃ e ∈ (loadGraph s).edges, e.target = x ∧ e.source = y) := by
  constructor
  · rw [cmdImpact_lookup_iff]
    constructor
    · rintro ⟨hd1, hd4, hmem⟩
      match d, hd1, hd4, hmem with
      | m + 1, _, hd4, hmem =>
        obtain ⟨hp, hmin⟩ :=
          (frontier_iff_min_dist (predsOf (loadGraph s)) start m id).mp hmem
        exact ⟨by omega, hd4, hp, hmin⟩
    · rintro ⟨hd1, hd4, hp, hmin⟩
      match d, hd1, hd4, hp, hmin with
      | m + 1, _, hd4, hp, hmin =>
        exact ⟨by omega, hd4,
          (frontier_iff_min_dist (predsOf (loadGraph s)) start m id).mpr ⟨hp, hmin⟩⟩
  · intro x y
    unfold predsOf incomingOf
    simp only [List.mem_map, List.mem_filter, beq_iff_eq]
    constructor
    · rintro ⟨e, ⟨he, ht⟩, hs⟩
      exact ⟨e, he, ht, hs⟩
    · rintro ⟨e, he, ht, hs⟩
      exact ⟨e, ⟨he, ht⟩, hs⟩

/-- Witness for C2: in a concrete graph where `b` imports `a`, the impact of
`a` records `b` at depth 1, and the characterization recovers the one-hop
reverse path. -/
theorem impact_bfs_depth_characterization_witness :
    NbPath (predsOf (loadGraph impactWSnap)) "a" "b" 1 :=
  (((impact_bfs_depth_characterization impactWSnap "a" "b" 1).1).mp (by decide)).2.2.1

/-! ### Path BFS: queue loop equals level-synchronous reference -/

theorem runPathLevels_nil (g : GraphQuery) (targets : List String) :
    ∀ (c : Nat) (vis : List String), runPathLevels g targets c [] vis = none := by
  intro c vis
  cases c <;> rfl

theorem path_G (g : GraphQuery) (targets : List String) :
    ∀ c : Nat, ∀ fuel : Nat,
      ∀ (eK next : List (String × List String)) (vis : List String),
      eK.length + next.length + 2 * unvis g vis ≤ fuel →
      1 + unvis g vis + (if next = [] then 0 else 1) ≤ c →
      pathLoop g targets fuel (eK ++ next) vis
        = match processLevel g targets eK vis next with
          | Sum.inl res => res
          | Sum.inr (v', nx) => runPathLevels g targets c nx v' := by
  intro c
  induction c with
  | zero =>
    intro fuel eK next vis _ hc
    exfalso
    by_cases h : next = []
    · rw [if_pos h] at hc
      omega
    · rw [if_neg h] at hc
      omega
  | succ c' ihc =>
    intro fuel
    induction fuel with
    | zero =>
      intro eK next vis hf hc
      have he : eK = [] := List.eq_nil_of_length_eq_zero (by omega)
      have hn : next = [] := List.eq_nil_of_length_eq_zero (by omega)
      subst he; subst hn
      show pathLoop g targets 0 [] vis
        = match processLevel g targets [] vis [] with
          | Sum.inl res => res
          | Sum.inr (v', nx) => runPathLevels g targets (c' + 1) nx v'
      show (none : Option (List String))
        = match (Sum.inr (vis, []) :
            Option (List String) ⊕ (List String × List (String × List String))) with
          | Sum.inl res => res
          | Sum.inr (v', nx) => runPathLevels g targets (c' + 1) nx v'
      rfl
    | succ f ihf =>
      intro eK next vis hf hc
      cases eK with
      | nil =>
        show pathLoop g targets (f + 1) ([] ++ next) vis
          = match (Sum.inr (vis, next) :
              Option (List String) ⊕ (List String × List (String × List String))) with
            | Sum.inl res => res
            | Sum.inr (v', nx) => runPathLevels g targets (c' + 1) nx v'
        rw [List.nil_append]
        cases next with
        | nil =>
          show pathLoop g targets (f + 1) [] vis = runPathLevels g targets (c' + 1) [] vis
          rfl
        | cons e rest =>
          show pathLoop g targets (f + 1) (e :: rest) vis
            = runPathLevels g targets (c' + 1) (e :: rest) vis
          have hstep : runPathLevels g targets (c' + 1) (e :: rest) vis
              = match processLevel g targets (e :: rest) vis [] with
                | Sum.inl res => res
                | Sum.inr (v', nx) => runPathLevels g targets c' nx v' := rfl
          rw [hstep]
          have h2 := ihc (f + 1) (e :: rest) [] vis
            (by simp only [List.length_nil] at hf ⊢; omega)
            (by
              rw [if_neg (by simp)] at hc
              rw [if_pos rfl]
              omega)
          rw [List.append_nil] at h2
          exact h2
      | cons ep rest =>
        obtain ⟨cur, p⟩ := ep
        rw [List.cons_append]
        simp only [pathLoop, processLevel]
        by_cases htar : cur ∈ targets
        · rw [if_pos htar, if_pos htar]
        · rw [if_neg htar, if_neg htar]
          have hu := discoverIds_unvis (g := g) (neighborsOf g cur) vis
            (fun x hx => neighborsOf_sub_universe g hx)
          by_cases hcap : (discoverIds (neighborsOf g cur) vis).1.length > 500
          · rw [if_pos hcap, if_pos hcap]
          · rw [if_neg hcap, if_neg hcap]
            rw [List.append_assoc]
            have h2 := ihf rest
              (next ++ ((discoverIds (neighborsOf g cur) vis).2).map (fun x => (x, p ++ [x])))
              (discoverIds (neighborsOf g cur) vis).1
              (by
                simp only [List.length_cons, List.length_append, List.length_map] at hf ⊢
                omega)
              (by
                by_cases hnx : next ++ ((discoverIds (neighborsOf g cur) vis).2).map
                    (fun x => (x, p ++ [x])) = []
                · rw [if_pos hnx]
                  have : unvis g (discoverIds (neighborsOf g cur) vis).1 ≤ unvis g vis := by
                    omega
                  by_cases hn0 : next = [] <;>
                    [rw [if_pos hn0] at hc; rw [if_neg hn0] at hc] <;> omega
                · rw [if_neg hnx]
                  by_cases hn0 : next = []
                  · rw [if_pos hn0] at hc
                    have hds : (discoverIds (neighborsOf g cur) vis).2 ≠ [] := by
                      intro hd0
                      rw [hn0, hd0] at hnx
                      exact hnx rfl
                    have : 1 ≤ ((discoverIds (neighborsOf g cur) vis).2).length :=
                      Nat.succ_le_of_lt (List.length_pos.mpr hds)
                    omega
                  · rw [if_neg hn0] at hc
                    omega)
            exact h2

theorem cmdPath_eq_levels (g : GraphQuery) (targets : List String) (start : String) :
    cmdPath g start targets
      = runPathLevels g targets (unvis g [start] + 2) [(start, [start])] [start] := by
  have h := path_G g targets (unvis g [start] + 1) (2 * (universeIds g).length + 2)
    [(start, [start])] [] [start]
    (by
      have hle : unvis g [start] ≤ (universeIds g).length := List.length_filter_le _ _
      simp only [List.length_cons, List.length_nil]
      omega)
    (by rw [if_pos rfl]; omega)
  rw [List.append_nil] at h
  have hstep : runPathLevels g targets (unvis g [start] + 2) [(start, [start])] [start]
      = match processLevel g targets [(start, [start])] [start] [] with
        | Sum.inl res => res
        | Sum.inr (v', nx) => runPathLevels g targets (unvis g [start] + 1) nx v' := rfl
  rw [hstep]
  exact h

theorem processLevel_inl_some (g : GraphQuery) (targets : List String) :
    ∀ (eK : List (String × List String)) (vis : List String)
      (acc : List (String × List String)) (p : List String),
      processLevel g targets eK vis acc = Sum.inl (some p) →
      ∃ l1 x l2, eK = l1 ++ (x, p) :: l2 ∧ x ∈ targets ∧ ∀ ep ∈ l1, ep.1 ∉ targets := by
  intro eK
  induction eK with
  | nil =>
    intro vis acc p h
    cases h
  | cons ep rest ih =>
    obtain ⟨cur, q⟩ := ep
    intro vis acc p h
    simp only [processLevel] at h
    by_cases htar : cur ∈ targets
    · rw [if_pos htar] at h
      injection h with h
      injection h with h
      subst h
      exact ⟨[], cur, rest, rfl, htar, fun ep hep => absurd hep (List.not_mem_nil ep)⟩
    · rw [if_neg htar] at h
      by_cases hcap : (discoverIds (neighborsOf g cur) vis).1.length > 500
      · rw [if_pos hcap] at h
        injection h with h
        cases h
      · rw [if_neg hcap] at h
        obtain ⟨l1, x, l2, heq, hx, hl1⟩ := ih _ _ p h
        refine ⟨(cur, q) :: l1, x, l2, by rw [heq]; rfl, hx, ?_⟩
        intro ep hep
        rcases List.mem_cons.mp hep with hep | hep
        · subst hep
          exact htar
        · exact hl1 ep hep

theorem processLevel_inr (g : GraphQuery) (targets : List String) :
    ∀ (eK : List (String × List String)) (vis : List String)
      (acc : List (String × List String)) (v' : List String)
      (nx : List (String × List String)),
      processLevel g targets eK vis acc = Sum.inr (v', nx) →
      v' = (expandLevel (neighborsOf g) (eK.map Prod.fst) vis).1
      ∧ nx.map Prod.fst
          = acc.map Prod.fst ++ (expandLevel (neighborsOf g) (eK.map Prod.fst) vis).2
      ∧ (∀ ep ∈ nx, ep ∈ acc
          ∨ ∃ yq ∈ eK, ep.2 = yq.2 ++ [ep.1] ∧ ep.1 ∈ neighborsOf g yq.1)
      ∧ (∀ ep ∈ eK, ep.1 ∉ targets) := by
  intro eK
  induction eK with
  | nil =>
    intro vis acc v' nx h
    injection h with h
    injection h with h1 h2
    subst h1
    subst h2
    refine ⟨rfl, ?_, fun ep hep => Or.inl hep,
      fun ep hep => absurd hep (List.not_mem_nil ep)⟩
    have hE : expandLevel (neighborsOf g) (([] : List (String × List String)).map Prod.fst) vis
        = (vis, []) := rfl
    rw [hE]
    simp
  | cons ep0 rest ih =>
    obtain ⟨cur, q⟩ := ep0
    intro vis acc v' nx h
    simp only [processLevel] at h
    by_cases htar : cur ∈ targets
    · rw [if_pos htar] at h
      cases h
    · rw [if_neg htar] at h
      by_cases hcap : (discoverIds (neighborsOf g cur) vis).1.length > 500
      · rw [if_pos hcap] at h
        cases h
      · rw [if_neg hcap] at h
        obtain ⟨h1, h2, h3, h4⟩ := ih _ _ _ _ h
        have hEc : expandLevel (neighborsOf g) (((cur, q) :: rest).map Prod.fst) vis
            = ((expandLevel (neighborsOf g) (rest.map Prod.fst)
                  (discoverIds (neighborsOf g cur) vis).1).1,
               (discoverIds (neighborsOf g cur) vis).2
                 ++ (expandLevel (neighborsOf g) (rest.map Prod.fst)
                      (discoverIds (neighborsOf g cur) vis).1).2) := rfl
    
        refine ⟨by rw [hEc]; exact h1, ?_, ?_, ?_⟩
        · rw [hEc]
          rw [h2]
          simp only [List.map_append, List.map_map]
          have hmm : ((discoverIds (neighborsOf g cur) vis).2).map
              (Prod.fst ∘ fun x => (x, q ++ [x]))
              = (discoverIds (neighborsOf g cur) vis).2 := by
            have : (Prod.fst ∘ fun x : String => (x, q ++ [x])) = id := by
              funext x
              rfl
            rw [this, List.map_id]
          rw [hmm, List.append_assoc]
        · intro ep hep
          rcases h3 ep hep with hin | ⟨yq, hyq, he1, he2⟩
          · rcases List.mem_append.mp hin with hin | hin
            · exact Or.inl hin
            · obtain ⟨x, hx, hxe⟩ := List.mem_map.mp hin
              right
              refine ⟨(cur, q), List.mem_cons_self _ _, ?_, ?_⟩
              · rw [← hxe]
              · rw [← hxe]
                exact ((mem_discoverIds_snd _ _).mp hx).1
          · exact Or.inr ⟨yq, List.mem_cons_of_mem _ hyq, he1, he2⟩
        · intro ep hep
          rcases List.mem_cons.mp hep with hep | hep
          · subst hep
            exact htar
          · exact h4 ep hep

theorem neighborsOf_mem_iff (g : GraphQuery) (y x : String) :
    x ∈ neighborsOf g y ↔ adj g y x := by
  unfold neighborsOf adj outgoingOf incomingOf
  simp only [List.mem_append, List.mem_map, List.mem_filter, beq_iff_eq]
  constructor
  · rintro (⟨e, ⟨he, hs⟩, ht⟩ | ⟨e, ⟨he, ht⟩, hs⟩)
    · exact ⟨e, he, Or.inl ⟨hs, ht⟩⟩
    · exact ⟨e, he, Or.inr ⟨hs, ht⟩⟩
  · rintro ⟨e, he, ⟨hs, ht⟩ | ⟨hs, ht⟩⟩
    · exact Or.inl ⟨e, ⟨he, hs⟩, ht⟩
    · exact Or.inr ⟨e, ⟨he, ht⟩, hs⟩

theorem pathList_length_pos {g : GraphQuery} {start : String} {p : List String} {x : String}
    (h : PathList g start p x) : 1 ≤ p.length := by
  induction h with
  | single => exact le_refl 1
  | snoc hp hadj ih => simp

theorem pathList_getLast {g : GraphQuery} {start : String} {p : List String} {x : String}
    (h : PathList g start p x) : p.getLast? = some x := by
  induction h with
  | single => rfl
  | snoc hp hadj ih => rw [List.getLast?_concat]

theorem pathList_to_nbPath {g : GraphQuery} {start : String} {p : List String} {x : String}
    (h : PathList g start p x) : NbPath (neighborsOf g) start x (p.length - 1) := by
  induction h with
  | single => exact NbPath.refl
  | @snoc p x y hp hadj ih =>
    have hpos := pathList_length_pos hp
    have hlen : (p ++ [y]).length - 1 = (p.length - 1) + 1 := by
      simp only [List.length_append, List.length_cons, List.length_nil]
      omega
    rw [hlen]
    exact NbPath.step ih ((neighborsOf_mem_iff g x y).mpr hadj)

theorem visited_eq_frontiers (nb : String → List String) (start : String) (m : Nat)
    (x : String) :
    x ∈ visitedAt nb start m ↔ ∃ j ≤ m, x ∈ frontierAt nb start j := by
  induction m with
  | zero =>
    constructor
    · intro h
      exact ⟨0, le_refl 0, h⟩
    · rintro ⟨j, hj, hx⟩
      rw [Nat.le_zero.mp hj] at hx
      exact hx
  | succ m ih =>
    rw [visitedAt_succ, List.mem_append]
    constructor
    · rintro (h | h)
      · obtain ⟨j, hj, hx⟩ := ih.mp h
        exact ⟨j, Nat.le_succ_of_le hj, hx⟩
      · exact ⟨m + 1, le_refl _, h⟩
    · rintro ⟨j, hj, hx⟩
      rcases Nat.lt_or_ge j (m + 1) with hlt | hge
      · exact Or.inl (ih.mpr ⟨j, Nat.lt_succ_iff.mp hlt, hx⟩)
      · have : j = m + 1 := le_antisymm hj hge
        subst this
        exact Or.inr hx

theorem runPathLevels_sound (g : GraphQuery) (targets : List String) (start : String) :
    ∀ (c n : Nat) (entries : List (String × List String)) (p : List String),
      entries.map Prod.fst = frontierAt (neighborsOf g) start n →
      (∀ ep ∈ entries, PathList g start ep.2 ep.1 ∧ ep.2.length = n + 1) →
      (∀ m < n, ∀ y ∈ frontierAt (neighborsOf g) start m, y ∉ targets) →
      runPathLevels g targets c entries (visitedAt (neighborsOf g) start n) = some p →
      ∃ n' x, n ≤ n' ∧ x ∈ targets ∧ PathList g start p x ∧ p.length = n' + 1
        ∧ (∃ l1 l2, frontierAt (neighborsOf g) start n' = l1 ++ x :: l2
            ∧ ∀ y ∈ l1, y ∉ targets)
        ∧ (∀ m < n', ∀ y ∈ frontierAt (neighborsOf g) start m, y ∉ targets) := by
  intro c
  induction c with
  | zero =>
    intro n entries p _ _ _ hres
    cases hres
  | succ c ihc =>
    intro n entries p hfst hpaths htarg hres
    cases entries with
    | nil =>
      cases hres
    | cons e0 rest0 =>
      have hun : runPathLevels g targets (c + 1) (e0 :: rest0)
            (visitedAt (neighborsOf g) start n)
          = match processLevel g targets (e0 :: rest0)
                (visitedAt (neighborsOf g) start n) [] with
            | Sum.inl res => res
            | Sum.inr (v', nx) => runPathLevels g targets c nx v' := rfl
      rw [hun] at hres
      cases hPL : processLevel g targets (e0 :: rest0)
          (visitedAt (neighborsOf g) start n) [] with
      | inl res =>
        rw [hPL] at hres
        simp only [] at hres
        subst hres
        obtain ⟨l1, x, l2, heq, hx, hl1⟩ :=
          processLevel_inl_some g targets (e0 :: rest0) _ [] p hPL
        have hxe : (x, p) ∈ e0 :: rest0 := by
          rw [heq]
          exact List.mem_append.mpr (Or.inr (List.mem_cons_self _ _))
        obtain ⟨hpl, hplen⟩ := hpaths (x, p) hxe
        refine ⟨n, x, le_refl n, hx, hpl, hplen, ?_, htarg⟩
        refine ⟨l1.map Prod.fst, l2.map Prod.fst, ?_, ?_⟩
        · rw [← hfst, heq]
          simp
        · intro y hy
          obtain ⟨ep, hep, hepy⟩ := List.mem_map.mp hy
          rw [← hepy]
          exact hl1 ep hep
      | inr vp =>
        obtain ⟨v', nx⟩ := vp
        rw [hPL] at hres
        simp only [] at hres
        obtain ⟨hv, hnx, hpathsnx, hnotar⟩ :=
          processLevel_inr g targets (e0 :: rest0) _ [] v' nx hPL
        have hv' : v' = visitedAt (neighborsOf g) start (n + 1) := by
          rw [hv, hfst]
          rfl
        have hnx' : nx.map Prod.fst = frontierAt (neighborsOf g) start (n + 1) := by
          rw [hnx, hfst]
          simp only [List.map_nil, List.nil_append]
          rfl
        have hpaths' : ∀ ep ∈ nx, PathList g start ep.2 ep.1 ∧ ep.2.length = (n + 1) + 1 := by
          intro ep hep
          rcases hpathsnx ep hep with hin | ⟨yq, hyq, he1, he2⟩
          · exact absurd hin (List.not_mem_nil ep)
          · obtain ⟨hpl, hplen⟩ := hpaths yq hyq
            constructor
            · rw [he1]
              exact PathList.snoc hpl ((neighborsOf_mem_iff g yq.1 ep.1).mp he2)
            · rw [he1]
              simp only [List.length_append, List.length_cons, List.length_nil]
              omega
        have htarg' : ∀ m < n + 1, ∀ y ∈ frontierAt (neighborsOf g) start m,
            y ∉ targets := by
          intro m hm y hy
          rcases Nat.lt_or_ge m n with hmn | hmn
          · exact htarg m hmn y hy
          · have hm_eq : m = n := by omega
            subst hm_eq
            rw [← hfst] at hy
            obtain ⟨ep, hep, hepy⟩ := List.mem_map.mp hy
            rw [← hepy]
            exact hnotar ep hep
        rw [hv'] at hres
        obtain ⟨n', x, hn', hrest⟩ := ihc (n + 1) nx p hnx' hpaths' htarg' hres
        exact ⟨n', x, by omega, hrest⟩

theorem cmdPath_some_sound (g : GraphQuery) (targets : List String) (start : String)
    (p : List String) (hres : cmdPath g start targets = some p) :
    ∃ n' x, x ∈ targets ∧ PathList g start p x ∧ p.length = n' + 1
      ∧ (∃ l1 l2, frontierAt (neighborsOf g) start n' = l1 ++ x :: l2
          ∧ ∀ y ∈ l1, y ∉ targets)
      ∧ (∀ m < n', ∀ y ∈ frontierAt (neighborsOf g) start m, y ∉ targets) := by
  rw [cmdPath_eq_levels] at hres
  obtain ⟨n', x, -, hx, hpl, hlen, hsplit, htarg⟩ :=
    runPathLevels_sound g targets start (unvis g [start] + 2) 0 [(start, [start])] p
      rfl
      (by
        intro ep hep
        have : ep = (start, [start]) := List.mem_singleton.mp hep
        subst this
        exact ⟨PathList.single, rfl⟩)
      (by intro m hm; omega)
      hres
  exact ⟨n', x, hx, hpl, hlen, hsplit, htarg⟩

theorem path_shortest {g : GraphQuery} {targets : List String} {start : String}
    {p : List String} {n' : Nat}
    (hlen : p.length = n' + 1)
    (htarg : ∀ m < n', ∀ y ∈ frontierAt (neighborsOf g) start m, y ∉ targets) :
    ∀ (q : List String) (x' : String),
      PathList g start q x' → x' ∈ targets → p.length ≤ q.length := by
  intro q x' hq hx'
  have hnb := pathList_to_nbPath hq
  have hqpos := pathList_length_pos hq
  have hv := nbPath_visited (neighborsOf g) start hnb
  obtain ⟨j, hj, hfr⟩ := (visited_eq_frontiers (neighborsOf g) start (q.length - 1) x').mp hv
  rcases Nat.lt_or_ge j n' with hjn | hjn
  · exact absurd hx' (htarg j hjn x' hfr)
  · omega

theorem cmdPath_cap_abort (g : GraphQuery) (targets : List String) (start : String)
    (h1 : start ∉ targets)
    (h2 : (discoverIds (neighborsOf g start) [start]).1.length > 500) :
    cmdPath g start targets = none := by
  unfold cmdPath
  have hf : 2 * (universeIds g).length + 2 = (2 * (universeIds g).length + 1) + 1 := rfl
  rw [hf]
  simp only [pathLoop]
  rw [if_neg h1, if_pos h2]

theorem discoverIds_fresh :
    ∀ (ps vis : List String), ps.Nodup → (∀ p ∈ ps, p ∉ vis) →
      discoverIds ps vis = (vis ++ ps, ps) := by
  intro ps
  induction ps with
  | nil => intro vis _ _; simp [discoverIds]
  | cons p rest ih =>
    intro vis hnd hfresh
    rw [List.nodup_cons] at hnd
    unfold discoverIds
    rw [if_neg (hfresh p (List.mem_cons_self p rest))]
    rw [ih (vis ++ [p]) hnd.2
      (fun x hx => by
        rw [List.mem_append, List.mem_singleton]
        push_neg
        exact ⟨hfresh x (List.mem_cons_of_mem p hx), fun hc => hnd.1 (hc ▸ hx)⟩)]
    simp

theorem aStr_injective : Function.Injective aStr := by
  intro m n h
  have hd := congrArg String.data h
  have : (List.replicate m 'a').length = (List.replicate n 'a').length := by
    exact congrArg List.length hd
  simpa using this

theorem aStr_ne_s0 (n : Nat) : aStr (n + 1) ≠ "s0" := by
  intro h
  have hd := congrArg String.data h
  rw [show (aStr (n + 1)).data = 'a' :: List.replicate n 'a' from rfl] at hd
  have hchar : 'a' = 's' := by
    have : ("s0".data) = ['s', '0'] := rfl
    rw [this] at hd
    injection hd
  exact absurd hchar (by decide)

theorem aIds_nodup : aIds.Nodup := by
  refine List.Nodup.map ?_ (List.nodup_range 501)
  intro m n h
  have := aStr_injective h
  omega

theorem mem_aIds_hasNode (i : String) (hi : i ∈ aIds) :
    hasNodeId capSnap.nodes i = true := by
  refine (hasNodeId_iff _ _).mpr ⟨fileNode i, ?_, rfl⟩
  exact List.mem_cons_of_mem _ (List.mem_cons_of_mem _ (List.mem_map.mpr ⟨i, hi, rfl⟩))

theorem loadGraph_edges (s : Snapshot) : (loadGraph s).edges = keptEdges s := rfl

theorem capSnap_kept : keptEdges capSnap = capSnap.edges := by
  refine List.filter_eq_self.mpr (fun e he => ?_)
  have hs0 : hasNodeId capSnap.nodes "s0" = true :=
    (hasNodeId_iff _ _).mpr ⟨fileNode "s0", List.mem_cons_self _ _, rfl⟩
  have ht : hasNodeId capSnap.nodes "t" = true :=
    (hasNodeId_iff _ _).mpr ⟨fileNode "t",
      List.mem_cons_of_mem _ (List.mem_cons_self _ _), rfl⟩
  have ha1 : aStr 1 ∈ aIds :=
    List.mem_map.mpr ⟨0, List.mem_range.mpr (by omega), rfl⟩
  rcases List.mem_cons.mp he with he | he
  · subst he
    rw [show (impEdge (aStr 1) "t").source = aStr 1 from rfl,
      show (impEdge (aStr 1) "t").target = "t" from rfl,
      mem_aIds_hasNode (aStr 1) ha1, ht]
    rfl
  · obtain ⟨i, hi, hie⟩ := List.mem_map.mp he
    subst hie
    rw [show (impEdge "s0" i).source = "s0" from rfl,
      show (impEdge "s0" i).target = i from rfl, hs0, mem_aIds_hasNode i hi]
    rfl

theorem capSnap_neighbors : neighborsOf (loadGraph capSnap) "s0" = aIds := by
  have hedges : (loadGraph capSnap).edges = capSnap.edges :=
    (loadGraph_edges capSnap).trans capSnap_kept
  unfold neighborsOf outgoingOf incomingOf
  rw [hedges]
  have hout : capSnap.edges.filter (fun e => e.source == "s0")
      = aIds.map (fun i => impEdge "s0" i) := by
    show (impEdge (aStr 1) "t" :: aIds.map (fun i => impEdge "s0" i)).filter
        (fun e => e.source == "s0") = _
    rw [List.filter_cons]
    rw [if_neg (by
      show ¬((aStr 1 == "s0") = true)
      rw [beq_iff_eq]
      exact aStr_ne_s0 0)]
    refine List.filter_eq_self.mpr (fun e he => ?_)
    obtain ⟨i, hi, hie⟩ := List.mem_map.mp he
    subst hie
    rfl
  have hin : capSnap.edges.filter (fun e => e.target == "s0") = [] := by
    refine List.filter_eq_nil_iff.mpr (fun e he hb => ?_)
    rcases List.mem_cons.mp he with he | he
    · subst he
      have hbt : (impEdge (aStr 1) "t").target = "s0" := by simpa using hb
      exact absurd hbt (by decide)
    · obtain ⟨i, hi, hie⟩ := List.mem_map.mp he
      subst hie
      have hit : i = "s0" := by simpa using hb
      obtain ⟨k, hk, hki⟩ := List.mem_map.mp hi
      exact aStr_ne_s0 k (hki.symm ▸ hit : aStr (k + 1) = "s0")
  rw [hout, hin]
  rw [List.map_nil, List.append_nil, List.map_map]
  have : (Edge.target ∘ fun i => impEdge "s0" i) = id := by
    funext i
    rfl
  rw [this, List.map_id]

theorem capSnap_cap_trips :
    (discoverIds (neighborsOf (loadGraph capSnap) "s0") ["s0"]).1.length > 500 := by
  rw [capSnap_neighbors]
  rw [discoverIds_fresh aIds ["s0"] aIds_nodup
    (fun p hp => by
      rw [List.mem_singleton]
      obtain ⟨k, hk, hkp⟩ := List.mem_map.mp hp
      exact hkp ▸ aStr_ne_s0 k)]
  have hlen : aIds.length = 501 := by
    unfold aIds
    rw [List.length_map, List.length_range]
  show (["s0"] ++ aIds).length > 500
  rw [List.length_append, hlen]
  omega

theorem capSnap_path_exists : PathList (loadGraph capSnap) "s0" ["s0", aStr 1, "t"] "t" := by
  have hedges : (loadGraph capSnap).edges = capSnap.edges :=
    (loadGraph_edges capSnap).trans capSnap_kept
  have ha1 : aStr 1 ∈ aIds :=
    List.mem_map.mpr ⟨0, List.mem_range.mpr (by omega), rfl⟩
  have adj1 : adj (loadGraph capSnap) "s0" (aStr 1) := by
    refine ⟨impEdge "s0" (aStr 1), ?_, Or.inl ⟨rfl, rfl⟩⟩
    rw [hedges]
    exact List.mem_cons_of_mem _ (List.mem_map.mpr ⟨aStr 1, ha1, rfl⟩)
  have adj2 : adj (loadGraph capSnap) (aStr 1) "t" := by
    refine ⟨impEdge (aStr 1) "t", ?_, Or.inl ⟨rfl, rfl⟩⟩
    rw [hedges]
    exact List.mem_cons_self _ _
  have h1 : PathList (loadGraph capSnap) "s0" (["s0"] ++ [aStr 1]) (aStr 1) :=
    PathList.snoc PathList.single adj1
  have h2 : PathList (loadGraph capSnap) "s0" ((["s0"] ++ [aStr 1]) ++ ["t"]) "t" :=
    PathList.snoc h1 adj2
  exact h2

/-- C8: the path search is an undirected BFS terminating at the first
dequeued target node with a shortest path to it (levels are scanned in
ascending hop count, and within the hit level the target is the first
frontier entry in the target set); an unreachable target yields no path; and
a concrete graph whose first expansion visits more than 500 nodes shows the
hard safety cap aborting with "no path found" even though a path exists. -/
theorem path_search_bfs (s : Snapshot) (start : String) (targets : List String) :
    (∀ p, cmdPath (loadGraph s) start targets = some p →
      ∃ x, p.getLast? = some x ∧ x ∈ targets ∧ PathList (loadGraph s) start p x
        ∧ (∀ (q : List String) (x' : String),
            PathList (loadGraph s) start q x' → x' ∈ targets → p.length ≤ q.length)
        ∧ ∃ n' l1 l2, p.length = n' + 1
            ∧ frontierAt (neighborsOf (loadGraph s)) start n' = l1 ++ x :: l2
            ∧ (∀ y ∈ l1, y ∉ targets)
            ∧ (∀ m < n', ∀ y ∈ frontierAt (neighborsOf (loadGraph s)) start m,
                y ∉ targets))
    ∧ ((¬ ∃ (q : List String) (x' : String),
          PathList (loadGraph s) start q x' ∧ x' ∈ targets) →
        cmdPath (loadGraph s) start targets = none)
    ∧ ((∃ q, PathList (loadGraph capSnap) "s0" q "t")
        ∧ cmdPath (loadGraph capSnap) "s0" capTargets = none) := by
  have hsound : ∀ p, cmdPath (loadGraph s) start targets = some p →
      ∃ x, p.getLast? = some x ∧ x ∈ targets ∧ PathList (loadGraph s) start p x
        ∧ (∀ (q : List String) (x' : String),
            PathList (loadGraph s) start q x' → x' ∈ targets → p.length ≤ q.length)
        ∧ ∃ n' l1 l2, p.length = n' + 1
            ∧ frontierAt (neighborsOf (loadGraph s)) start n' = l1 ++ x :: l2
            ∧ (∀ y ∈ l1, y ∉ targets)
            ∧ (∀ m < n', ∀ y ∈ frontierAt (neighborsOf (loadGraph s)) start m,
                y ∉ targets) := by
    intro p hres
    obtain ⟨n', x, hx, hpl, hlen, ⟨l1, l2, hsplit, hl1⟩, htarg⟩ :=
      cmdPath_some_sound (loadGraph s) targets start p hres
    exact ⟨x, pathList_getLast hpl, hx, hpl, path_shortest hlen htarg,
      n', l1, l2, hlen, hsplit, hl1, htarg⟩
  refine ⟨hsound, ?_, ?_⟩
  · intro hno
    cases hres : cmdPath (loadGraph s) start targets with
    | none => rfl
    | some p =>
      obtain ⟨x, -, hx, hpl, -⟩ := hsound p hres
      exact absurd ⟨p, x, hpl, hx⟩ hno
  · refine ⟨⟨["s0", aStr 1, "t"], capSnap_path_exists⟩, ?_⟩
    exact cmdPath_cap_abort (loadGraph capSnap) capTargets "s0" (by decide)
      capSnap_cap_trips

/-- Witness for C8 on a concrete two-node graph: the search returns the
unique path and the theorem certifies it as a shortest path to a target. -/
theorem path_search_bfs_witness :
    ∃ x, (["a", "b"] : List String).getLast? = some x ∧ x ∈ ["b"]
      ∧ PathList (loadGraph pathWSnap) "a" ["a", "b"] x
      ∧ (∀ (q : List String) (x' : String),
          PathList (loadGraph pathWSnap) "a" q x' → x' ∈ ["b"]
            → (["a", "b"] : List String).length ≤ q.length)
      ∧ ∃ n' l1 l2, (["a", "b"] : List String).length = n' + 1
          ∧ frontierAt (neighborsOf (loadGraph pathWSnap)) "a" n' = l1 ++ x :: l2
          ∧ (∀ y ∈ l1, y ∉ ["b"])
          ∧ (∀ m < n', ∀ y ∈ frontierAt (neighborsOf (loadGraph pathWSnap)) "a" m,
              y ∉ ["b"]) :=
  (path_search_bfs pathWSnap "a" ["b"]).1 ["a", "b"] (by decide)

end CodeGraph
